import Mathlib

set_option maxRecDepth 8000
set_option maxHeartbeats 1000000

/-!
Shallow embedding of the `bpf-math` streaming arithmetic crate and the
stake rate-limit calculators built on it.  `u64` values are modelled as
`Nat`; every Rust operation that can wrap in release mode carries an
explicit `% U64_MOD`, and operations whose operands are dominated by a
guard that rules out overflow for 64-bit inputs are translated as plain
`Nat` arithmetic.  All loops of the source are bounded `for i in
(0..64).rev()` loops and are embedded as structural recursion on a fuel
argument that starts at 64.
-/

def BASIS_POINTS_PER_UNIT : Nat := 10000

def U64_MOD : Nat := 2 ^ 64

def U64_MAX : Nat := 2 ^ 64 - 1

def U128_MOD : Nat := 2 ^ 128

/-- Function `split_base_10k` from bpf-math: `(x / 10_000, x % 10_000)`. -/
def split_base_10k (x : Nat) : Nat × Nat :=
  (x / BASIS_POINTS_PER_UNIT, x % BASIS_POINTS_PER_UNIT)

/-- Function `add_hi_mod` from bpf-math.  Returns the updated `hi` together with the
number of wraps reported (the Rust function mutates `hi` in place and
returns the wrap count).  `hi + add` in the final branch cannot overflow
for `u64` inputs because it is guarded by `add < space = cp - hi`. -/
def add_hi_mod (hi add cp : Nat) : Nat × Nat :=
  if add = 0 then (hi, 0)
  else
    let hi0 := if cp ≤ hi then hi % cp else hi
    let space := cp - hi0
    if space ≤ add then (add - space, 1) else (hi0 + add, 0)

/-- Function `add_base_10k_mod` from bpf-math.  Returns `(hi, lo, wraps)`.
`lo + add_lo` is an unguarded `u64` addition in the source, so it is
wrapped modulo `2^64`. -/
def add_base_10k_mod (hi lo add_hi add_lo cp : Nat) : Nat × Nat × Nat :=
  let lo_sum := (lo + add_lo) % U64_MOD
  let lo1 := if BASIS_POINTS_PER_UNIT ≤ lo_sum then lo_sum - BASIS_POINTS_PER_UNIT else lo_sum
  let carry_hi : Nat := if BASIS_POINTS_PER_UNIT ≤ lo_sum then 1 else 0
  let r1 := add_hi_mod hi add_hi cp
  let r2 := add_hi_mod r1.1 carry_hi cp
  (r2.1, lo1, r1.2 + r2.2)

/-- Function `double_base_10k_reduce` from bpf-math: adds `(hi, lo)` to itself and
collapses the wrap count to a single bit.  Returns `(hi, lo, bit)`. -/
def double_base_10k_reduce (hi lo cp : Nat) : Nat × Nat × Nat :=
  let r := add_base_10k_mod hi lo hi lo cp
  (r.1, r.2.1, if r.2.2 ≠ 0 then 1 else 0)

/-- Function `add_with_cap` from bpf-math. -/
def add_with_cap (current add cap : Nat) : Option Nat :=
  if add = 0 then some current
  else if cap < add then none
  else if cap - add < current then none
  else some (current + add)

/-- Function `double_with_cap` from bpf-math.  The source computes
`(q << 1) | bit` under `debug_assert!(bit <= 1)` and the guard
`q ≤ (cap - bit) >> 1`, so the shift cannot overflow and the bitwise or
on the even number `q << 1` is the addition of `bit`. -/
def double_with_cap (q bit cap : Nat) : Option Nat :=
  if cap < bit then none
  else
    let allowed := (cap - bit) / 2
    if allowed < q then none else some (2 * q + bit)

/-- Loop body of `mul_cap` from bpf-math, with the `while b != 0 && res < cap`
condition and the in-loop early `return cap` made explicit; the final
`if res > cap { cap } else { res }` of the source is applied on exit.
`res + a` and `2 * a` are guarded in the source (`a < cap - res`,
`a ≤ cap >> 1`) and cannot overflow for `u64` inputs. -/
def mulCapLoop : Nat → Nat → Nat → Nat → Nat → Nat
  | 0, _, _, cap, res => if cap < res then cap else res
  | fuel + 1, a, b, cap, res =>
    if b = 0 ∨ cap ≤ res then (if cap < res then cap else res)
    else
      let room := cap - res
      if b % 2 = 1 ∧ room ≤ a then cap
      else
        let res1 := if b % 2 = 1 then res + a else res
        let a1 := if cap / 2 < a then cap else 2 * a
        mulCapLoop fuel a1 (b / 2) cap res1

/-- Function `mul_cap` from bpf-math: saturating shift-add multiply.  The source
loop halves `b` each iteration, so 64 iterations suffice for `u64` `b`. -/
def mul_cap (a b cap : Nat) : Nat :=
  if a = 0 ∨ b = 0 then 0 else mulCapLoop 64 a b cap 0

/-- One iteration (bit position `i`) of the `for i in (0..64).rev()` loop of
`mul_div_by_cp10k_capped`; `none` models the early `return None`. -/
def mulDivStep (b aq ah al cp q_cap i q r_hi r_lo : Nat) :
    Option (Nat × Nat × Nat) :=
  let d := double_base_10k_reduce r_hi r_lo cp
  match double_with_cap q d.2.2 q_cap with
  | none => none
  | some q1 =>
    if (b >>> i) % 2 = 1 then
      match add_with_cap q1 aq q_cap with
      | none => none
      | some q2 =>
        let s := add_base_10k_mod d.1 d.2.1 ah al cp
        if s.2.2 ≠ 0 then
          match add_with_cap q2 s.2.2 q_cap with
          | none => none
          | some q3 => some (q3, s.1, s.2.1)
        else some (q2, s.1, s.2.1)
    else some (q1, d.1, d.2.1)

/-- The full loop of `mul_div_by_cp10k_capped`: fuel `i + 1` processes bit
`i` of `b`, so fuel 64 runs the source loop `for i in (0..64).rev()`. -/
def mulDivLoop (b aq ah al cp q_cap : Nat) : Nat → Nat → Nat → Nat → Option (Nat × Nat × Nat)
  | 0, q, r_hi, r_lo => some (q, r_hi, r_lo)
  | i + 1, q, r_hi, r_lo =>
    match mulDivStep b aq ah al cp q_cap i q r_hi r_lo with
    | none => none
    | some s => mulDivLoop b aq ah al cp q_cap i s.1 s.2.1 s.2.2

/-- Function `mul_div_by_cp10k_capped` from bpf-math. -/
def mul_div_by_cp10k_capped (a b cp q_cap : Nat) : Option (Nat × Nat × Nat) :=
  if a = 0 ∨ b = 0 then some (0, 0, 0)
  else if cp = 0 then none
  else
    let a_hi_all := a / BASIS_POINTS_PER_UNIT
    let a_lo := a % BASIS_POINTS_PER_UNIT
    mulDivLoop b (a_hi_all / cp) (a_hi_all % cp) a_lo cp q_cap 64 0 0 0

/-- One iteration (bit position `i`) of the loop of `remainder_mul_div`.
The source computes `q = (q << 1) | bit` and `q.wrapping_add(wraps)` with
wrapping `u64` semantics: the shifted `q` wraps modulo `2^64` (it is even
after the wrap, so or-ing the bit adds it), and the wrapping add is an
addition modulo `2^64`. -/
def remMulDivStep (k ah al cp i q r_hi r_lo : Nat) : Nat × Nat × Nat :=
  let d := double_base_10k_reduce r_hi r_lo cp
  let q1 := (2 * q) % U64_MOD + d.2.2
  if (k >>> i) % 2 = 1 then
    let s := add_base_10k_mod d.1 d.2.1 ah al cp
    (if s.2.2 ≠ 0 then (q1 + s.2.2) % U64_MOD else q1, s.1, s.2.1)
  else (q1, d.1, d.2.1)

/-- The loop of `remainder_mul_div`; fuel `i + 1` processes bit `i` of `k`. -/
def remMulDivLoop (k ah al cp : Nat) : Nat → Nat → Nat → Nat → Nat
  | 0, q, _, _ => q
  | i + 1, q, r_hi, r_lo =>
    let s := remMulDivStep k ah al cp i q r_hi r_lo
    remMulDivLoop k ah al cp i s.1 s.2.1 s.2.2

/-- Function `remainder_mul_div` from bpf-math. -/
def remainder_mul_div (rem_hi rem_lo k cp : Nat) : Nat :=
  if k = 0 then 0 else remMulDivLoop k rem_hi rem_lo cp 64 0 0 0

/-- Variant of `remMulDivStep` with the two wrapping `u64` additions of the
source (`q << 1` and `q.wrapping_add(wraps)`) replaced by exact `Nat`
arithmetic; used to state that the wrapping operations never actually
wrap on reduced remainders. -/
def remMulDivStepExact (k ah al cp i q r_hi r_lo : Nat) : Nat × Nat × Nat :=
  let d := double_base_10k_reduce r_hi r_lo cp
  let q1 := 2 * q + d.2.2
  if (k >>> i) % 2 = 1 then
    let s := add_base_10k_mod d.1 d.2.1 ah al cp
    (if s.2.2 ≠ 0 then q1 + s.2.2 else q1, s.1, s.2.1)
  else (q1, d.1, d.2.1)

/-- Loop of `remainder_mul_div` built on the exact (non-wrapping) step. -/
def remMulDivLoopExact (k ah al cp : Nat) : Nat → Nat → Nat → Nat → Nat
  | 0, q, _, _ => q
  | i + 1, q, r_hi, r_lo =>
    let s := remMulDivStepExact k ah al cp i q r_hi r_lo
    remMulDivLoopExact k ah al cp i s.1 s.2.1 s.2.2

/-- Variant of `remainder_mul_div` with exact (non-wrapping) quotient accumulation. -/
def remainder_mul_div_exact (rem_hi rem_lo k cp : Nat) : Nat :=
  if k = 0 then 0 else remMulDivLoopExact k rem_hi rem_lo cp 64 0 0 0

/-- Number of loop-body iterations `mul_div_by_cp10k_capped` executes:
an iteration that hits an early `return None` counts as executed, and
the loop stops there. -/
def mulDivLoopIters (b aq ah al cp q_cap : Nat) : Nat → Nat → Nat → Nat → Nat
  | 0, _, _, _ => 0
  | i + 1, q, r_hi, r_lo =>
    match mulDivStep b aq ah al cp q_cap i q r_hi r_lo with
    | none => 1
    | some s => 1 + mulDivLoopIters b aq ah al cp q_cap i s.1 s.2.1 s.2.2

/-- Iterations of the inner loop executed by `mul_div_by_cp10k_capped`
(0 when one of the early returns before the loop fires). -/
def mul_div_iterations (a b cp q_cap : Nat) : Nat :=
  if a = 0 ∨ b = 0 then 0
  else if cp = 0 then 0
  else
    let a_hi_all := a / BASIS_POINTS_PER_UNIT
    let a_lo := a % BASIS_POINTS_PER_UNIT
    mulDivLoopIters b (a_hi_all / cp) (a_hi_all % cp) a_lo cp q_cap 64 0 0 0

/-- Number of loop-body iterations of `remainder_mul_div`'s loop. -/
def remMulDivLoopIters (k ah al cp : Nat) : Nat → Nat → Nat → Nat → Nat
  | 0, _, _, _ => 0
  | i + 1, q, r_hi, r_lo =>
    let s := remMulDivStep k ah al cp i q r_hi r_lo
    1 + remMulDivLoopIters k ah al cp i s.1 s.2.1 s.2.2

/-- Iterations of the inner loop executed by `remainder_mul_div`
(0 when `k == 0` returns before the loop). -/
def remainder_mul_div_iterations (rem_hi rem_lo k cp : Nat) : Nat :=
  if k = 0 then 0 else remMulDivLoopIters k rem_hi rem_lo cp 64 0 0 0

def ORIGINAL_WARMUP_COOLDOWN_RATE_BPS : Nat := 2500

def TOWER_WARMUP_COOLDOWN_RATE_BPS : Nat := 900

/-- Function `warmup_cooldown_rate_bps` from the crate root:
`if epoch < new_rate_activation_epoch.unwrap_or(u64::MAX) { 2_500 } else { 900 }`. -/
def warmup_cooldown_rate_bps (epoch : Nat) (new_rate_activation_epoch : Option Nat) : Nat :=
  if epoch < new_rate_activation_epoch.getD U64_MAX then
    ORIGINAL_WARMUP_COOLDOWN_RATE_BPS
  else
    TOWER_WARMUP_COOLDOWN_RATE_BPS

/-- Streaming calculator `EbpfStreamingCalculator::rate_limited_stake_change`. -/
def ebpf_rate_limited_stake_change (epoch account_portion cluster_portion cluster_effective : Nat)
    (new_rate_activation_epoch : Option Nat) : Nat :=
  if account_portion = 0 ∨ cluster_portion = 0 ∨ cluster_effective = 0 then 0
  else
    let rate_bps := warmup_cooldown_rate_bps epoch new_rate_activation_epoch
    let q_cap := account_portion / rate_bps
    match mul_div_by_cp10k_capped account_portion cluster_effective cluster_portion q_cap with
    | none => account_portion
    | some t =>
      let total := mul_cap t.1 rate_bps account_portion
      if account_portion ≤ total then account_portion
      else
        let t2 := remainder_mul_div t.2.1 t.2.2 rate_bps cluster_portion
        if account_portion - total ≤ t2 then account_portion else total + t2

/-- Reference backend `ManualCalculator::rate_limited_stake_change`: the `u128`
backend.  The `checked_mul` chain on `u128` fails exactly when a product
reaches `2^128`; `saturating_mul` for the denominator is `min` with
`u128::MAX`; `checked_div(..).unwrap()` is plain division (the divisor is
nonzero on this path); the final `as u64` cast is a reduction mod `2^64`. -/
def manual_rate_limited_stake_change (epoch account_portion cluster_portion cluster_effective : Nat)
    (new_rate_activation_epoch : Option Nat) : Nat :=
  if account_portion = 0 ∨ cluster_portion = 0 ∨ cluster_effective = 0 then 0
  else
    let rate_bps := warmup_cooldown_rate_bps epoch new_rate_activation_epoch
    let m1 := account_portion * cluster_effective
    if m1 < U128_MOD then
      let n := m1 * rate_bps
      if n < U128_MOD then
        let denominator := min (cluster_portion * BASIS_POINTS_PER_UNIT) (U128_MOD - 1)
        (min (n / denominator) account_portion) % U64_MOD
      else account_portion
    else account_portion

/-! ## Basic facts about the constants -/

theorem BASIS_POINTS_PER_UNIT_pos : 0 < BASIS_POINTS_PER_UNIT := by
  norm_num [BASIS_POINTS_PER_UNIT]

/-! ## Exactness of the mixed-radix primitives -/

/-- Exactness of `add_hi_mod`, one reduction step: for `hi < cp` and
`add ≤ cp` the returned pair `(hi2, w)` satisfies `hi2 + w * cp = hi + add`
with `hi2 < cp` and `w ≤ 1`. -/
theorem add_hi_mod_spec (hi add cp : Nat) (hhi : hi < cp) (hadd : add ≤ cp) :
    (add_hi_mod hi add cp).1 < cp ∧
    (add_hi_mod hi add cp).1 + (add_hi_mod hi add cp).2 * cp = hi + add ∧
    (add_hi_mod hi add cp).2 ≤ 1 := by
  simp only [add_hi_mod]
  split_ifs <;> refine ⟨?_, ?_, ?_⟩ <;> simp_all <;> omega

/-- Exactness of `add_base_10k_mod`: it adds the addend pair into the accumulator pair and
reports in `wraps` exactly how many multiples of `cp * 10_000` were
removed, provided both pairs are canonical. -/
theorem add_base_10k_mod_spec (hi lo ah al cp : Nat)
    (h1 : hi < cp) (h2 : lo < BASIS_POINTS_PER_UNIT) (h3 : ah < cp)
    (h4 : al < BASIS_POINTS_PER_UNIT) :
    (add_base_10k_mod hi lo ah al cp).1 < cp ∧
    (add_base_10k_mod hi lo ah al cp).2.1 < BASIS_POINTS_PER_UNIT ∧
    (add_base_10k_mod hi lo ah al cp).1 * BASIS_POINTS_PER_UNIT +
        (add_base_10k_mod hi lo ah al cp).2.1 +
        (add_base_10k_mod hi lo ah al cp).2.2 * (cp * BASIS_POINTS_PER_UNIT)
      = (hi * BASIS_POINTS_PER_UNIT + lo) + (ah * BASIS_POINTS_PER_UNIT + al) ∧
    (add_base_10k_mod hi lo ah al cp).2.2 ≤ 2 := by
  have hsum : (lo + al) % U64_MOD = lo + al := by
    apply Nat.mod_eq_of_lt
    have hb : BASIS_POINTS_PER_UNIT = 10000 := rfl
    have hu : U64_MOD = 2 ^ 64 := rfl
    omega
  obtain ⟨ha1, ha2, ha3⟩ := add_hi_mod_spec hi ah cp h1 h3.le
  by_cases hc : BASIS_POINTS_PER_UNIT ≤ lo + al
  · obtain ⟨hb1, hb2, hb3⟩ := add_hi_mod_spec (add_hi_mod hi ah cp).1 1 cp ha1 (by omega)
    simp only [add_base_10k_mod, hsum, if_pos hc]
    refine ⟨hb1, by omega, ?_, by omega⟩
    have key : (add_hi_mod (add_hi_mod hi ah cp).1 1 cp).1 +
        ((add_hi_mod hi ah cp).2 + (add_hi_mod (add_hi_mod hi ah cp).1 1 cp).2) * cp
        = hi + ah + 1 := by rw [Nat.add_mul]; omega
    calc (add_hi_mod (add_hi_mod hi ah cp).1 1 cp).1 * BASIS_POINTS_PER_UNIT +
          (lo + al - BASIS_POINTS_PER_UNIT) +
          ((add_hi_mod hi ah cp).2 + (add_hi_mod (add_hi_mod hi ah cp).1 1 cp).2) *
            (cp * BASIS_POINTS_PER_UNIT)
        = ((add_hi_mod (add_hi_mod hi ah cp).1 1 cp).1 +
            ((add_hi_mod hi ah cp).2 + (add_hi_mod (add_hi_mod hi ah cp).1 1 cp).2) * cp) *
            BASIS_POINTS_PER_UNIT + (lo + al - BASIS_POINTS_PER_UNIT) := by ring
    _ = (hi + ah + 1) * BASIS_POINTS_PER_UNIT + (lo + al - BASIS_POINTS_PER_UNIT) := by rw [key]
    _ = hi * BASIS_POINTS_PER_UNIT + ah * BASIS_POINTS_PER_UNIT +
          (BASIS_POINTS_PER_UNIT + (lo + al - BASIS_POINTS_PER_UNIT)) := by ring
    _ = (hi * BASIS_POINTS_PER_UNIT + lo) + (ah * BASIS_POINTS_PER_UNIT + al) := by omega
  · obtain ⟨hb1, hb2, hb3⟩ := add_hi_mod_spec (add_hi_mod hi ah cp).1 0 cp ha1 (by omega)
    simp only [add_base_10k_mod, hsum, if_neg hc]
    refine ⟨hb1, by omega, ?_, by omega⟩
    have key : (add_hi_mod (add_hi_mod hi ah cp).1 0 cp).1 +
        ((add_hi_mod hi ah cp).2 + (add_hi_mod (add_hi_mod hi ah cp).1 0 cp).2) * cp
        = hi + ah := by rw [Nat.add_mul]; omega
    calc (add_hi_mod (add_hi_mod hi ah cp).1 0 cp).1 * BASIS_POINTS_PER_UNIT + (lo + al) +
          ((add_hi_mod hi ah cp).2 + (add_hi_mod (add_hi_mod hi ah cp).1 0 cp).2) *
            (cp * BASIS_POINTS_PER_UNIT)
        = ((add_hi_mod (add_hi_mod hi ah cp).1 0 cp).1 +
            ((add_hi_mod hi ah cp).2 + (add_hi_mod (add_hi_mod hi ah cp).1 0 cp).2) * cp) *
            BASIS_POINTS_PER_UNIT + (lo + al) := by ring
    _ = (hi + ah) * BASIS_POINTS_PER_UNIT + (lo + al) := by rw [key]
    _ = (hi * BASIS_POINTS_PER_UNIT + lo) + (ah * BASIS_POINTS_PER_UNIT + al) := by ring

/-- Canonical pairs represent values below the modulus. -/
theorem canonical_value_lt (hi lo cp : Nat) (h1 : hi < cp) (h2 : lo < BASIS_POINTS_PER_UNIT) :
    hi * BASIS_POINTS_PER_UNIT + lo < cp * BASIS_POINTS_PER_UNIT := by
  have : (hi + 1) * BASIS_POINTS_PER_UNIT ≤ cp * BASIS_POINTS_PER_UNIT :=
    Nat.mul_le_mul_right _ h1
  have h := BASIS_POINTS_PER_UNIT_pos
  nlinarith

/-- Exactness of `double_base_10k_reduce`: on a canonical pair it computes the double
modulo `cp * 10_000` and returns exactly the quotient bit; the underlying
`add_base_10k_mod` call reports at most one wrap. -/
theorem double_base_10k_reduce_spec (hi lo cp : Nat)
    (h1 : hi < cp) (h2 : lo < BASIS_POINTS_PER_UNIT) :
    (double_base_10k_reduce hi lo cp).1 < cp ∧
    (double_base_10k_reduce hi lo cp).2.1 < BASIS_POINTS_PER_UNIT ∧
    (double_base_10k_reduce hi lo cp).1 * BASIS_POINTS_PER_UNIT +
        (double_base_10k_reduce hi lo cp).2.1
      = (2 * (hi * BASIS_POINTS_PER_UNIT + lo)) % (cp * BASIS_POINTS_PER_UNIT) ∧
    (double_base_10k_reduce hi lo cp).2.2
      = (2 * (hi * BASIS_POINTS_PER_UNIT + lo)) / (cp * BASIS_POINTS_PER_UNIT) ∧
    (add_base_10k_mod hi lo hi lo cp).2.2 ≤ 1 := by
  obtain ⟨hc1, hc2, hval, hw2⟩ := add_base_10k_mod_spec hi lo hi lo cp h1 h2 h1 h2
  have hM : 0 < cp * BASIS_POINTS_PER_UNIT := by
    have := BASIS_POINTS_PER_UNIT_pos
    have : 0 < cp := by omega
    positivity
  have hVlt := canonical_value_lt hi lo cp h1 h2
  have hVlt' := canonical_value_lt (add_base_10k_mod hi lo hi lo cp).1
    (add_base_10k_mod hi lo hi lo cp).2.1 cp hc1 hc2
  -- at most one wrap: two wraps would make the right side at least twice the modulus
  have hwle : (add_base_10k_mod hi lo hi lo cp).2.2 ≤ 1 := by
    by_contra hgt
    have h22 : (add_base_10k_mod hi lo hi lo cp).2.2 = 2 := by omega
    rw [h22] at hval
    omega
  have hq : (2 * (hi * BASIS_POINTS_PER_UNIT + lo)) / (cp * BASIS_POINTS_PER_UNIT)
      = (add_base_10k_mod hi lo hi lo cp).2.2 := by
    have e : 2 * (hi * BASIS_POINTS_PER_UNIT + lo)
        = ((add_base_10k_mod hi lo hi lo cp).1 * BASIS_POINTS_PER_UNIT +
            (add_base_10k_mod hi lo hi lo cp).2.1) +
          (add_base_10k_mod hi lo hi lo cp).2.2 * (cp * BASIS_POINTS_PER_UNIT) := by omega
    rw [e, Nat.add_mul_div_right _ _ hM, Nat.div_eq_of_lt hVlt', Nat.zero_add]
  have hr : (2 * (hi * BASIS_POINTS_PER_UNIT + lo)) % (cp * BASIS_POINTS_PER_UNIT)
      = (add_base_10k_mod hi lo hi lo cp).1 * BASIS_POINTS_PER_UNIT +
        (add_base_10k_mod hi lo hi lo cp).2.1 := by
    have e : 2 * (hi * BASIS_POINTS_PER_UNIT + lo)
        = ((add_base_10k_mod hi lo hi lo cp).1 * BASIS_POINTS_PER_UNIT +
            (add_base_10k_mod hi lo hi lo cp).2.1) +
          (add_base_10k_mod hi lo hi lo cp).2.2 * (cp * BASIS_POINTS_PER_UNIT) := by omega
    rw [e, Nat.add_mul_mod_self_right, Nat.mod_eq_of_lt hVlt']
  simp only [double_base_10k_reduce]
  refine ⟨hc1, hc2, hr.symm, ?_, hwle⟩
  rw [hq]
  split_ifs <;> omega

/-! ## The capped quotient helpers -/

/-- For an in-cap accumulator, `add_with_cap` is a plain checked addition. -/
theorem add_with_cap_eq (c a cap : Nat) (hc : c ≤ cap) :
    add_with_cap c a cap = if cap < c + a then none else some (c + a) := by
  unfold add_with_cap
  split_ifs <;> simp_all <;> omega

/-- Function `double_with_cap` is a checked `2 * q + bit` for `bit ≤ 1`. -/
theorem double_with_cap_eq (q bit cap : Nat) (hbit : bit ≤ 1) :
    double_with_cap q bit cap = if cap < 2 * q + bit then none else some (2 * q + bit) := by
  unfold double_with_cap
  split_ifs <;> simp_all <;> omega

/-! ## Correctness of the saturating multiply -/

/-- The `mul_cap` loop computes a saturating multiply-accumulate: with the
accumulator at `res` and `b` fitting in `fuel` bits, it returns
`min (res + a * b) cap`. -/
theorem mulCapLoop_spec : ∀ fuel a b cap res, b < 2 ^ fuel → res ≤ cap →
    mulCapLoop fuel a b cap res = min (res + a * b) cap := by
  intro fuel
  induction fuel with
  | zero =>
    intro a b cap res hb hres
    have hb0 : b = 0 := by omega
    subst hb0
    simp only [mulCapLoop, Nat.mul_zero, Nat.add_zero, Nat.min_def]
    split_ifs <;> omega
  | succ fuel ih =>
    intro a b cap res hb hres
    simp only [mulCapLoop]
    by_cases hstop : b = 0 ∨ cap ≤ res
    · rw [if_pos hstop]
      rcases hstop with h | h
      · subst h
        simp only [Nat.mul_zero, Nat.add_zero, Nat.min_def]
        split_ifs <;> omega
      · have hd : a * b + res ≥ cap := by
          have := Nat.zero_le (a * b)
          omega
        simp only [Nat.min_def]
        split_ifs <;> omega
    · rw [if_neg hstop]
      push_neg at hstop
      obtain ⟨hbne, hreslt⟩ := hstop
      have hb2 : b / 2 < 2 ^ fuel := by
        have : (2 : Nat) ^ (fuel + 1) = 2 * 2 ^ fuel := by ring
        omega
      by_cases hsat : b % 2 = 1 ∧ cap - res ≤ a
      · rw [if_pos hsat]
        obtain ⟨hodd, hroom⟩ := hsat
        have hab : a ≤ a * b := Nat.le_mul_of_pos_right a (by omega)
        simp only [Nat.min_def]
        split_ifs <;> omega
      · rw [if_neg hsat]
        have key : a * b = a * (b / 2) + a * (b / 2) + a * (b % 2) := by
          have e : b = 2 * (b / 2) + b % 2 := by omega
          calc a * b = a * (2 * (b / 2) + b % 2) := by rw [← e]
          _ = a * (b / 2) + a * (b / 2) + a * (b % 2) := by ring
        by_cases hodd : b % 2 = 1
        · have hroom : ¬ cap - res ≤ a := fun h => hsat ⟨hodd, h⟩
          rw [hodd] at key
          have hres1 : res + a ≤ cap := by omega
          by_cases hbig : cap / 2 < a
          · simp only [if_pos hodd, if_pos hbig]
            rw [ih cap (b / 2) cap (res + a) hb2 hres1]
            -- both sides saturate unless b / 2 = 0
            rcases Nat.eq_zero_or_pos (b / 2) with hz | hpos
            · have hz2 : a * (b / 2) = 0 := by rw [hz, Nat.mul_zero]
              have hz3 : cap * (b / 2) = 0 := by rw [hz, Nat.mul_zero]
              simp only [Nat.min_def]
              split_ifs <;> omega
            · have h1 : cap ≤ cap * (b / 2) := Nat.le_mul_of_pos_right cap hpos
              have h2 : a ≤ a * (b / 2) := Nat.le_mul_of_pos_right a hpos
              omega
          · simp only [if_pos hodd, if_neg hbig]
            rw [ih (2 * a) (b / 2) cap (res + a) hb2 hres1]
            have e2 : 2 * a * (b / 2) = a * (b / 2) + a * (b / 2) := by ring
            omega
        · have hodd' : b % 2 = 0 := by omega
          rw [hodd'] at key
          simp only [if_neg hodd]
          by_cases hbig : cap / 2 < a
          · simp only [if_pos hbig]
            rw [ih cap (b / 2) cap res hb2 hres]
            have hpos : 0 < b / 2 := by omega
            have h1 : cap ≤ cap * (b / 2) := Nat.le_mul_of_pos_right cap hpos
            have h2 : a ≤ a * (b / 2) := Nat.le_mul_of_pos_right a hpos
            simp only [Nat.min_def]
            split_ifs <;> omega
          · simp only [if_neg hbig]
            rw [ih (2 * a) (b / 2) cap res hb2 hres]
            have e2 : 2 * a * (b / 2) = a * (b / 2) + a * (b / 2) := by ring
            simp only [Nat.min_def]
            split_ifs <;> omega

theorem mul_cap_spec (a b cap : Nat) (hb : b < 2 ^ 64) :
    mul_cap a b cap = min (a * b) cap := by
  unfold mul_cap
  by_cases h : a = 0 ∨ b = 0
  · rw [if_pos h]
    rcases h with h | h <;> subst h <;> simp
  · rw [if_neg h, mulCapLoop_spec 64 a b cap 0 hb (Nat.zero_le cap), Nat.zero_add]

/-! ## Correctness of the capped bit-serial multiply-divide -/

/-- One iteration of the `mul_div_by_cp10k_capped` loop either advances the
quotient/remainder state exactly — doubling the accumulated value and
adding the adder value when bit `i` of `b` is set — or signals `none`,
in which case the value accumulated by this iteration already pushes the
true quotient beyond `q_cap`. -/
theorem mulDivStep_spec (b aq ah al cp q_cap i q r_hi r_lo : Nat)
    (hah : ah < cp) (hal : al < BASIS_POINTS_PER_UNIT)
    (h1 : r_hi < cp) (h2 : r_lo < BASIS_POINTS_PER_UNIT) (hq : q ≤ q_cap) :
    (∀ s, mulDivStep b aq ah al cp q_cap i q r_hi r_lo = some s →
      s.2.1 < cp ∧ s.2.2 < BASIS_POINTS_PER_UNIT ∧ s.1 ≤ q_cap ∧
      s.1 * (cp * BASIS_POINTS_PER_UNIT) + (s.2.1 * BASIS_POINTS_PER_UNIT + s.2.2)
        = (q * (cp * BASIS_POINTS_PER_UNIT) + (r_hi * BASIS_POINTS_PER_UNIT + r_lo)) * 2
          + (if (b >>> i) % 2 = 1
             then aq * (cp * BASIS_POINTS_PER_UNIT) + (ah * BASIS_POINTS_PER_UNIT + al)
             else 0)) ∧
    (mulDivStep b aq ah al cp q_cap i q r_hi r_lo = none →
      (q_cap + 1) * (cp * BASIS_POINTS_PER_UNIT)
        ≤ (q * (cp * BASIS_POINTS_PER_UNIT) + (r_hi * BASIS_POINTS_PER_UNIT + r_lo)) * 2
          + (if (b >>> i) % 2 = 1
             then aq * (cp * BASIS_POINTS_PER_UNIT) + (ah * BASIS_POINTS_PER_UNIT + al)
             else 0)) := by
  obtain ⟨hd1, hd2, hdv, hdb, hdw⟩ := double_base_10k_reduce_spec r_hi r_lo cp h1 h2
  have hM : 0 < cp * BASIS_POINTS_PER_UNIT := by
    have hcp : 0 < cp := by omega
    have hB := BASIS_POINTS_PER_UNIT_pos
    positivity
  have hVM := canonical_value_lt r_hi r_lo cp h1 h2
  have hbit_le : (double_base_10k_reduce r_hi r_lo cp).2.2 ≤ 1 := by
    rw [hdb]
    have : 2 * (r_hi * BASIS_POINTS_PER_UNIT + r_lo) / (cp * BASIS_POINTS_PER_UNIT) < 2 :=
      Nat.div_lt_of_lt_mul (by omega)
    omega
  have hbitM : (double_base_10k_reduce r_hi r_lo cp).2.2 * (cp * BASIS_POINTS_PER_UNIT)
      ≤ 2 * (r_hi * BASIS_POINTS_PER_UNIT + r_lo) := by
    rw [hdb]; exact Nat.div_mul_le_self _ _
  have hdval : (double_base_10k_reduce r_hi r_lo cp).1 * BASIS_POINTS_PER_UNIT +
      (double_base_10k_reduce r_hi r_lo cp).2.1 +
      (double_base_10k_reduce r_hi r_lo cp).2.2 * (cp * BASIS_POINTS_PER_UNIT)
      = 2 * (r_hi * BASIS_POINTS_PER_UNIT + r_lo) := by
    have hdm := Nat.div_add_mod (2 * (r_hi * BASIS_POINTS_PER_UNIT + r_lo))
      (cp * BASIS_POINTS_PER_UNIT)
    rw [← hdb] at hdm
    rw [Nat.mul_comm] at hdm
    rw [hdv]
    omega
  have e5 : (q * (cp * BASIS_POINTS_PER_UNIT) + (r_hi * BASIS_POINTS_PER_UNIT + r_lo)) * 2
      = 2 * (q * (cp * BASIS_POINTS_PER_UNIT)) + 2 * (r_hi * BASIS_POINTS_PER_UNIT + r_lo) := by
    ring
  by_cases hcap1 : q_cap < 2 * q + (double_base_10k_reduce r_hi r_lo cp).2.2
  · have hstep : mulDivStep b aq ah al cp q_cap i q r_hi r_lo = none := by
      simp only [mulDivStep]
      rw [double_with_cap_eq _ _ _ hbit_le, if_pos hcap1]
    rw [hstep]
    refine ⟨fun s hs => by simp at hs, fun _ => ?_⟩
    have e1 : (q_cap + 1) * (cp * BASIS_POINTS_PER_UNIT)
        ≤ (2 * q + (double_base_10k_reduce r_hi r_lo cp).2.2) * (cp * BASIS_POINTS_PER_UNIT) :=
      Nat.mul_le_mul_right _ (by omega)
    have e2 : (2 * q + (double_base_10k_reduce r_hi r_lo cp).2.2) * (cp * BASIS_POINTS_PER_UNIT)
        = 2 * (q * (cp * BASIS_POINTS_PER_UNIT)) +
          (double_base_10k_reduce r_hi r_lo cp).2.2 * (cp * BASIS_POINTS_PER_UNIT) := by
      ring
    have hite : (0 : Nat) ≤ (if (b >>> i) % 2 = 1
        then aq * (cp * BASIS_POINTS_PER_UNIT) + (ah * BASIS_POINTS_PER_UNIT + al)
        else 0) := Nat.zero_le _
    omega
  · have hq1 : 2 * q + (double_base_10k_reduce r_hi r_lo cp).2.2 ≤ q_cap := by omega
    by_cases hbset : (b >>> i) % 2 = 1
    · obtain ⟨hs1, hs2, hsval, hsw⟩ := add_base_10k_mod_spec
        (double_base_10k_reduce r_hi r_lo cp).1 (double_base_10k_reduce r_hi r_lo cp).2.1
        ah al cp hd1 hd2 hah hal
      have hA := canonical_value_lt ah al cp hah hal
      have hVd := canonical_value_lt (double_base_10k_reduce r_hi r_lo cp).1
        (double_base_10k_reduce r_hi r_lo cp).2.1 cp hd1 hd2
      have hVs := canonical_value_lt
        (add_base_10k_mod (double_base_10k_reduce r_hi r_lo cp).1
          (double_base_10k_reduce r_hi r_lo cp).2.1 ah al cp).1
        (add_base_10k_mod (double_base_10k_reduce r_hi r_lo cp).1
          (double_base_10k_reduce r_hi r_lo cp).2.1 ah al cp).2.1 cp hs1 hs2
      have hswle : (add_base_10k_mod (double_base_10k_reduce r_hi r_lo cp).1
          (double_base_10k_reduce r_hi r_lo cp).2.1 ah al cp).2.2 ≤ 1 := by
        by_contra hgt
        have h22 : (add_base_10k_mod (double_base_10k_reduce r_hi r_lo cp).1
            (double_base_10k_reduce r_hi r_lo cp).2.1 ah al cp).2.2 = 2 := by omega
        rw [h22] at hsval
        omega
      by_cases hcap2 : q_cap < 2 * q + (double_base_10k_reduce r_hi r_lo cp).2.2 + aq
      · have hstep : mulDivStep b aq ah al cp q_cap i q r_hi r_lo = none := by
          simp only [mulDivStep]
          rw [double_with_cap_eq _ _ _ hbit_le, if_neg hcap1]
          simp only [if_pos hbset]
          rw [add_with_cap_eq _ _ _ hq1, if_pos hcap2]
        rw [hstep]
        refine ⟨fun s hs => by simp at hs, fun _ => ?_⟩
        rw [if_pos hbset]
        have e1 : (q_cap + 1) * (cp * BASIS_POINTS_PER_UNIT)
            ≤ (2 * q + (double_base_10k_reduce r_hi r_lo cp).2.2 + aq) *
              (cp * BASIS_POINTS_PER_UNIT) :=
          Nat.mul_le_mul_right _ (by omega)
        have e2 : (2 * q + (double_base_10k_reduce r_hi r_lo cp).2.2 + aq) *
            (cp * BASIS_POINTS_PER_UNIT)
            = 2 * (q * (cp * BASIS_POINTS_PER_UNIT)) +
              (double_base_10k_reduce r_hi r_lo cp).2.2 * (cp * BASIS_POINTS_PER_UNIT) +
              aq * (cp * BASIS_POINTS_PER_UNIT) := by
          ring
        omega
      · have hq2 : 2 * q + (double_base_10k_reduce r_hi r_lo cp).2.2 + aq ≤ q_cap := by omega
        by_cases hw0 : (add_base_10k_mod (double_base_10k_reduce r_hi r_lo cp).1
            (double_base_10k_reduce r_hi r_lo cp).2.1 ah al cp).2.2 = 0
        · have hstep : mulDivStep b aq ah al cp q_cap i q r_hi r_lo
              = some (2 * q + (double_base_10k_reduce r_hi r_lo cp).2.2 + aq,
                  (add_base_10k_mod (double_base_10k_reduce r_hi r_lo cp).1
                    (double_base_10k_reduce r_hi r_lo cp).2.1 ah al cp).1,
                  (add_base_10k_mod (double_base_10k_reduce r_hi r_lo cp).1
                    (double_base_10k_reduce r_hi r_lo cp).2.1 ah al cp).2.1) := by
            simp only [mulDivStep]
            rw [double_with_cap_eq _ _ _ hbit_le, if_neg hcap1]
            simp only [if_pos hbset]
            rw [add_with_cap_eq _ _ _ hq1, if_neg (by omega : ¬ q_cap <
              2 * q + (double_base_10k_reduce r_hi r_lo cp).2.2 + aq)]
            simp only [hw0, if_neg (by simp : ¬ (0 : Nat) ≠ 0)]
          rw [hstep]
          refine ⟨fun s hs => ?_, fun hn => by simp at hn⟩
          have hs' := Option.some.inj hs
          subst hs'
          dsimp only
          rw [if_pos hbset]
          rw [hw0] at hsval
          refine ⟨hs1, hs2, hq2, ?_⟩
          have e3 : (2 * q + (double_base_10k_reduce r_hi r_lo cp).2.2 + aq) *
              (cp * BASIS_POINTS_PER_UNIT)
              = 2 * (q * (cp * BASIS_POINTS_PER_UNIT)) +
                (double_base_10k_reduce r_hi r_lo cp).2.2 * (cp * BASIS_POINTS_PER_UNIT) +
                aq * (cp * BASIS_POINTS_PER_UNIT) := by
            ring
          omega
        · by_cases hcap3 : q_cap < 2 * q + (double_base_10k_reduce r_hi r_lo cp).2.2 + aq +
              (add_base_10k_mod (double_base_10k_reduce r_hi r_lo cp).1
                (double_base_10k_reduce r_hi r_lo cp).2.1 ah al cp).2.2
          · have hstep : mulDivStep b aq ah al cp q_cap i q r_hi r_lo = none := by
              simp only [mulDivStep]
              rw [double_with_cap_eq _ _ _ hbit_le, if_neg hcap1]
              simp only [if_pos hbset]
              rw [add_with_cap_eq _ _ _ hq1, if_neg (by omega : ¬ q_cap <
                2 * q + (double_base_10k_reduce r_hi r_lo cp).2.2 + aq)]
              simp only [if_pos hw0]
              rw [add_with_cap_eq _ _ _ hq2, if_pos hcap3]
            rw [hstep]
            refine ⟨fun s hs => by simp at hs, fun _ => ?_⟩
            rw [if_pos hbset]
            have e1 : (q_cap + 1) * (cp * BASIS_POINTS_PER_UNIT)
                ≤ (2 * q + (double_base_10k_reduce r_hi r_lo cp).2.2 + aq +
                    (add_base_10k_mod (double_base_10k_reduce r_hi r_lo cp).1
                      (double_base_10k_reduce r_hi r_lo cp).2.1 ah al cp).2.2) *
                  (cp * BASIS_POINTS_PER_UNIT) :=
              Nat.mul_le_mul_right _ (by omega)
            have e4 : (2 * q + (double_base_10k_reduce r_hi r_lo cp).2.2 + aq +
                (add_base_10k_mod (double_base_10k_reduce r_hi r_lo cp).1
                  (double_base_10k_reduce r_hi r_lo cp).2.1 ah al cp).2.2) *
                (cp * BASIS_POINTS_PER_UNIT)
                = 2 * (q * (cp * BASIS_POINTS_PER_UNIT)) +
                  (double_base_10k_reduce r_hi r_lo cp).2.2 * (cp * BASIS_POINTS_PER_UNIT) +
                  aq * (cp * BASIS_POINTS_PER_UNIT) +
                  (add_base_10k_mod (double_base_10k_reduce r_hi r_lo cp).1
                    (double_base_10k_reduce r_hi r_lo cp).2.1 ah al cp).2.2 *
                    (cp * BASIS_POINTS_PER_UNIT) := by
              ring
            omega
          · have hstep : mulDivStep b aq ah al cp q_cap i q r_hi r_lo
                = some (2 * q + (double_base_10k_reduce r_hi r_lo cp).2.2 + aq +
                    (add_base_10k_mod (double_base_10k_reduce r_hi r_lo cp).1
                      (double_base_10k_reduce r_hi r_lo cp).2.1 ah al cp).2.2,
                    (add_base_10k_mod (double_base_10k_reduce r_hi r_lo cp).1
                      (double_base_10k_reduce r_hi r_lo cp).2.1 ah al cp).1,
                    (add_base_10k_mod (double_base_10k_reduce r_hi r_lo cp).1
                      (double_base_10k_reduce r_hi r_lo cp).2.1 ah al cp).2.1) := by
              simp only [mulDivStep]
              rw [double_with_cap_eq _ _ _ hbit_le, if_neg hcap1]
              simp only [if_pos hbset]
              rw [add_with_cap_eq _ _ _ hq1, if_neg (by omega : ¬ q_cap <
                2 * q + (double_base_10k_reduce r_hi r_lo cp).2.2 + aq)]
              simp only [if_pos hw0]
              rw [add_with_cap_eq _ _ _ hq2, if_neg hcap3]
            rw [hstep]
            refine ⟨fun s hs => ?_, fun hn => by simp at hn⟩
            have hs' := Option.some.inj hs
            subst hs'
            dsimp only
            rw [if_pos hbset]
            refine ⟨hs1, hs2, by omega, ?_⟩
            have e4 : (2 * q + (double_base_10k_reduce r_hi r_lo cp).2.2 + aq +
                (add_base_10k_mod (double_base_10k_reduce r_hi r_lo cp).1
                  (double_base_10k_reduce r_hi r_lo cp).2.1 ah al cp).2.2) *
                (cp * BASIS_POINTS_PER_UNIT)
                = 2 * (q * (cp * BASIS_POINTS_PER_UNIT)) +
                  (double_base_10k_reduce r_hi r_lo cp).2.2 * (cp * BASIS_POINTS_PER_UNIT) +
                  aq * (cp * BASIS_POINTS_PER_UNIT) +
                  (add_base_10k_mod (double_base_10k_reduce r_hi r_lo cp).1
                    (double_base_10k_reduce r_hi r_lo cp).2.1 ah al cp).2.2 *
                    (cp * BASIS_POINTS_PER_UNIT) := by
              ring
            omega
    · have hstep : mulDivStep b aq ah al cp q_cap i q r_hi r_lo
          = some (2 * q + (double_base_10k_reduce r_hi r_lo cp).2.2,
              (double_base_10k_reduce r_hi r_lo cp).1,
              (double_base_10k_reduce r_hi r_lo cp).2.1) := by
        simp only [mulDivStep]
        rw [double_with_cap_eq _ _ _ hbit_le, if_neg hcap1]
        simp only [if_neg hbset]
      rw [hstep]
      refine ⟨fun s hs => ?_, fun hn => by simp at hn⟩
      have hs' := Option.some.inj hs
      subst hs'
      dsimp only
      rw [if_neg hbset]
      refine ⟨hd1, hd2, hq1, ?_⟩
      have e2 : (2 * q + (double_base_10k_reduce r_hi r_lo cp).2.2) *
          (cp * BASIS_POINTS_PER_UNIT)
          = 2 * (q * (cp * BASIS_POINTS_PER_UNIT)) +
            (double_base_10k_reduce r_hi r_lo cp).2.2 * (cp * BASIS_POINTS_PER_UNIT) := by
        ring
      omega

/-- Invariant of the `mul_div_by_cp10k_capped` loop: starting from an
in-cap quotient `q` and a canonical remainder, running the last `i`
bits of `b` either returns an exact quotient/remainder decomposition of
the accumulated value, or reports `none` exactly when the true quotient
of the accumulated value exceeds `q_cap`. -/
theorem mulDivLoop_spec (b aq ah al cp q_cap : Nat)
    (hah : ah < cp) (hal : al < BASIS_POINTS_PER_UNIT) :
    ∀ i q r_hi r_lo, r_hi < cp → r_lo < BASIS_POINTS_PER_UNIT → q ≤ q_cap →
    (∀ t, mulDivLoop b aq ah al cp q_cap i q r_hi r_lo = some t →
        t.2.1 < cp ∧ t.2.2 < BASIS_POINTS_PER_UNIT ∧ t.1 ≤ q_cap ∧
        t.1 * (cp * BASIS_POINTS_PER_UNIT) + (t.2.1 * BASIS_POINTS_PER_UNIT + t.2.2)
          = (q * (cp * BASIS_POINTS_PER_UNIT) + (r_hi * BASIS_POINTS_PER_UNIT + r_lo)) * 2 ^ i
            + (aq * (cp * BASIS_POINTS_PER_UNIT) + (ah * BASIS_POINTS_PER_UNIT + al)) *
              (b % 2 ^ i)) ∧
    (mulDivLoop b aq ah al cp q_cap i q r_hi r_lo = none →
        (q_cap + 1) * (cp * BASIS_POINTS_PER_UNIT)
          ≤ (q * (cp * BASIS_POINTS_PER_UNIT) + (r_hi * BASIS_POINTS_PER_UNIT + r_lo)) * 2 ^ i
            + (aq * (cp * BASIS_POINTS_PER_UNIT) + (ah * BASIS_POINTS_PER_UNIT + al)) *
              (b % 2 ^ i)) := by
  intro i
  induction i with
  | zero =>
    intro q r_hi r_lo h1 h2 hq
    constructor
    · intro t ht
      simp only [mulDivLoop] at ht
      have ht' := Option.some.inj ht
      subst ht'
      dsimp only
      refine ⟨h1, h2, hq, ?_⟩
      simp [Nat.mod_one]
    · intro hn
      simp only [mulDivLoop] at hn
      exact absurd hn (by simp)
  | succ i ih =>
    intro q r_hi r_lo h1 h2 hq
    obtain ⟨hstep_some, hstep_none⟩ :=
      mulDivStep_spec b aq ah al cp q_cap i q r_hi r_lo hah hal h1 h2 hq
    have hpow : (0 : Nat) < 2 ^ i := Nat.pos_pow_of_pos i (by norm_num)
    have hdecomp : b % 2 ^ (i + 1) = b % 2 ^ i + 2 ^ i * ((b >>> i) % 2) := by
      rw [pow_succ, Nat.mod_mul, Nat.shiftRight_eq_div_pow]
    rcases hstep : mulDivStep b aq ah al cp q_cap i q r_hi r_lo with _ | s
    · -- early return: the cap is already exceeded
      have hb := hstep_none hstep
      have heT : (q * (cp * BASIS_POINTS_PER_UNIT) +
            (r_hi * BASIS_POINTS_PER_UNIT + r_lo)) * 2 ^ (i + 1)
            + (aq * (cp * BASIS_POINTS_PER_UNIT) + (ah * BASIS_POINTS_PER_UNIT + al)) *
              (b % 2 ^ (i + 1))
          = ((q * (cp * BASIS_POINTS_PER_UNIT) +
                (r_hi * BASIS_POINTS_PER_UNIT + r_lo)) * 2
              + (if (b >>> i) % 2 = 1
                 then aq * (cp * BASIS_POINTS_PER_UNIT) + (ah * BASIS_POINTS_PER_UNIT + al)
                 else 0)) * 2 ^ i
            + (aq * (cp * BASIS_POINTS_PER_UNIT) + (ah * BASIS_POINTS_PER_UNIT + al)) *
              (b % 2 ^ i) := by
        rcases Nat.mod_two_eq_zero_or_one (b >>> i) with hbs | hbs
        · rw [hdecomp, hbs, if_neg (by omega)]
          ring
        · rw [hdecomp, hbs, if_pos rfl]
          ring
      constructor
      · intro t ht
        simp only [mulDivLoop, hstep] at ht
        exact Option.noConfusion ht
      · intro _
        rw [heT]
        calc (q_cap + 1) * (cp * BASIS_POINTS_PER_UNIT)
            ≤ (q * (cp * BASIS_POINTS_PER_UNIT) + (r_hi * BASIS_POINTS_PER_UNIT + r_lo)) * 2
              + (if (b >>> i) % 2 = 1
                 then aq * (cp * BASIS_POINTS_PER_UNIT) + (ah * BASIS_POINTS_PER_UNIT + al)
                 else 0) := hb
        _ ≤ ((q * (cp * BASIS_POINTS_PER_UNIT) + (r_hi * BASIS_POINTS_PER_UNIT + r_lo)) * 2
              + (if (b >>> i) % 2 = 1
                 then aq * (cp * BASIS_POINTS_PER_UNIT) + (ah * BASIS_POINTS_PER_UNIT + al)
                 else 0)) * 2 ^ i := Nat.le_mul_of_pos_right _ hpow
        _ ≤ _ := Nat.le_add_right _ _
    · -- the step succeeded: apply the induction hypothesis to the new state
      obtain ⟨hs1, hs2, hs3, hsval⟩ := hstep_some s hstep
      obtain ⟨ih_some, ih_none⟩ := ih s.1 s.2.1 s.2.2 hs1 hs2 hs3
      have heT : (s.1 * (cp * BASIS_POINTS_PER_UNIT) +
            (s.2.1 * BASIS_POINTS_PER_UNIT + s.2.2)) * 2 ^ i
            + (aq * (cp * BASIS_POINTS_PER_UNIT) + (ah * BASIS_POINTS_PER_UNIT + al)) *
              (b % 2 ^ i)
          = (q * (cp * BASIS_POINTS_PER_UNIT) +
                (r_hi * BASIS_POINTS_PER_UNIT + r_lo)) * 2 ^ (i + 1)
            + (aq * (cp * BASIS_POINTS_PER_UNIT) + (ah * BASIS_POINTS_PER_UNIT + al)) *
              (b % 2 ^ (i + 1)) := by
        rw [hsval]
        rcases Nat.mod_two_eq_zero_or_one (b >>> i) with hbs | hbs
        · rw [hdecomp, hbs, if_neg (by omega)]
          ring
        · rw [hdecomp, hbs, if_pos rfl]
          ring
      constructor
      · intro t ht
        simp only [mulDivLoop, hstep] at ht
        obtain ⟨c1, c2, c3, c4⟩ := ih_some t ht
        exact ⟨c1, c2, c3, by rw [c4, heT]⟩
      · intro hn
        simp only [mulDivLoop, hstep] at hn
        have := ih_none hn
        rw [← heT]
        exact this

/-- Exactness of `mul_div_by_cp10k_capped`: it computes the exact Euclidean decomposition of
`a * b` by `cp * 10_000` when it returns `some`, and returns `none`
exactly when the true quotient exceeds `q_cap`. -/
theorem mul_div_by_cp10k_capped_spec (a b cp q_cap : Nat) (hb : b < 2 ^ 64) (hcp : 0 < cp) :
    (∀ t, mul_div_by_cp10k_capped a b cp q_cap = some t →
        t.2.1 < cp ∧ t.2.2 < BASIS_POINTS_PER_UNIT ∧
        t.1 = a * b / (cp * BASIS_POINTS_PER_UNIT) ∧
        t.1 * (cp * BASIS_POINTS_PER_UNIT) + (t.2.1 * BASIS_POINTS_PER_UNIT + t.2.2) = a * b) ∧
    (mul_div_by_cp10k_capped a b cp q_cap = none ↔
        q_cap < a * b / (cp * BASIS_POINTS_PER_UNIT)) := by
  have hB := BASIS_POINTS_PER_UNIT_pos
  have hM : 0 < cp * BASIS_POINTS_PER_UNIT := Nat.mul_pos hcp hB
  by_cases hz : a = 0 ∨ b = 0
  · have hab : a * b = 0 := by rcases hz with h | h <;> subst h <;> ring
    have hres : mul_div_by_cp10k_capped a b cp q_cap = some (0, 0, 0) := by
      simp only [mul_div_by_cp10k_capped, if_pos hz]
    rw [hres, hab]
    constructor
    · intro t ht
      have ht' := Option.some.inj ht
      subst ht'
      dsimp only
      refine ⟨hcp, hB, ?_, ?_⟩ <;> simp
    · simp
  · have hres : mul_div_by_cp10k_capped a b cp q_cap
        = mulDivLoop b (a / BASIS_POINTS_PER_UNIT / cp) (a / BASIS_POINTS_PER_UNIT % cp)
            (a % BASIS_POINTS_PER_UNIT) cp q_cap 64 0 0 0 := by
      simp only [mul_div_by_cp10k_capped, if_neg hz, if_neg (by omega : ¬ cp = 0)]
    have hA : (a / BASIS_POINTS_PER_UNIT / cp) * (cp * BASIS_POINTS_PER_UNIT) +
        ((a / BASIS_POINTS_PER_UNIT % cp) * BASIS_POINTS_PER_UNIT + a % BASIS_POINTS_PER_UNIT)
        = a := by
      have e1 : cp * (a / BASIS_POINTS_PER_UNIT / cp) + a / BASIS_POINTS_PER_UNIT % cp
          = a / BASIS_POINTS_PER_UNIT := Nat.div_add_mod _ _
      have e2 : BASIS_POINTS_PER_UNIT * (a / BASIS_POINTS_PER_UNIT) + a % BASIS_POINTS_PER_UNIT
          = a := Nat.div_add_mod _ _
      calc (a / BASIS_POINTS_PER_UNIT / cp) * (cp * BASIS_POINTS_PER_UNIT) +
            ((a / BASIS_POINTS_PER_UNIT % cp) * BASIS_POINTS_PER_UNIT + a % BASIS_POINTS_PER_UNIT)
          = (cp * (a / BASIS_POINTS_PER_UNIT / cp) + a / BASIS_POINTS_PER_UNIT % cp) *
              BASIS_POINTS_PER_UNIT + a % BASIS_POINTS_PER_UNIT := by ring
      _ = BASIS_POINTS_PER_UNIT * (a / BASIS_POINTS_PER_UNIT) + a % BASIS_POINTS_PER_UNIT := by
            rw [e1]; ring
      _ = a := e2
    obtain ⟨hloop_some, hloop_none⟩ := mulDivLoop_spec b
      (a / BASIS_POINTS_PER_UNIT / cp) (a / BASIS_POINTS_PER_UNIT % cp)
      (a % BASIS_POINTS_PER_UNIT) cp q_cap (Nat.mod_lt _ hcp) (Nat.mod_lt _ hB)
      64 0 0 0 hcp hB (Nat.zero_le _)
    have hT : (0 * (cp * BASIS_POINTS_PER_UNIT) + (0 * BASIS_POINTS_PER_UNIT + 0)) * 2 ^ 64
          + ((a / BASIS_POINTS_PER_UNIT / cp) * (cp * BASIS_POINTS_PER_UNIT) +
              ((a / BASIS_POINTS_PER_UNIT % cp) * BASIS_POINTS_PER_UNIT +
                a % BASIS_POINTS_PER_UNIT)) * (b % 2 ^ 64)
        = a * b := by
      rw [hA, Nat.mod_eq_of_lt hb]
      ring
    rw [hT] at hloop_some hloop_none
    constructor
    · intro t ht
      rw [hres] at ht
      obtain ⟨c1, c2, c3, c4⟩ := hloop_some t ht
      refine ⟨c1, c2, ?_, c4⟩
      have hVt := canonical_value_lt t.2.1 t.2.2 cp c1 c2
      have hdivt : (t.1 * (cp * BASIS_POINTS_PER_UNIT) +
          (t.2.1 * BASIS_POINTS_PER_UNIT + t.2.2)) / (cp * BASIS_POINTS_PER_UNIT) = t.1 := by
        rw [Nat.mul_comm t.1 (cp * BASIS_POINTS_PER_UNIT), Nat.mul_add_div hM,
          Nat.div_eq_of_lt hVt, Nat.add_zero]
      rw [← c4]
      exact hdivt.symm
    · rw [hres]
      constructor
      · intro hn
        have hle := hloop_none hn
        have : q_cap + 1 ≤ a * b / (cp * BASIS_POINTS_PER_UNIT) :=
          (Nat.le_div_iff_mul_le hM).mpr hle
        omega
      · intro hlt
        rcases hcase : mulDivLoop b (a / BASIS_POINTS_PER_UNIT / cp)
            (a / BASIS_POINTS_PER_UNIT % cp) (a % BASIS_POINTS_PER_UNIT) cp q_cap 64 0 0 0
          with _ | t
        · rfl
        · exfalso
          obtain ⟨c1, c2, c3, c4⟩ := hloop_some t hcase
          have hVt := canonical_value_lt t.2.1 t.2.2 cp c1 c2
          have hfloor : a * b / (cp * BASIS_POINTS_PER_UNIT) = t.1 := by
            rw [← c4, Nat.mul_comm t.1 (cp * BASIS_POINTS_PER_UNIT), Nat.mul_add_div hM,
              Nat.div_eq_of_lt hVt, Nat.add_zero]
          omega

/-! ## Correctness of the remainder rescaling loop -/

/-- One iteration of the `remainder_mul_div` loop advances the state
exactly, provided the value it accumulates stays below `2^64` times the
modulus (which makes both wrapping additions of the source exact). -/
theorem remMulDivStep_spec (k ah al cp i q r_hi r_lo : Nat)
    (hah : ah < cp) (hal : al < BASIS_POINTS_PER_UNIT)
    (h1 : r_hi < cp) (h2 : r_lo < BASIS_POINTS_PER_UNIT)
    (hbound : (q * (cp * BASIS_POINTS_PER_UNIT) + (r_hi * BASIS_POINTS_PER_UNIT + r_lo)) * 2
        + (if (k >>> i) % 2 = 1 then ah * BASIS_POINTS_PER_UNIT + al else 0)
        < U64_MOD * (cp * BASIS_POINTS_PER_UNIT)) :
    (remMulDivStep k ah al cp i q r_hi r_lo).2.1 < cp ∧
    (remMulDivStep k ah al cp i q r_hi r_lo).2.2 < BASIS_POINTS_PER_UNIT ∧
    (remMulDivStep k ah al cp i q r_hi r_lo).1 * (cp * BASIS_POINTS_PER_UNIT)
        + ((remMulDivStep k ah al cp i q r_hi r_lo).2.1 * BASIS_POINTS_PER_UNIT
           + (remMulDivStep k ah al cp i q r_hi r_lo).2.2)
      = (q * (cp * BASIS_POINTS_PER_UNIT) + (r_hi * BASIS_POINTS_PER_UNIT + r_lo)) * 2
        + (if (k >>> i) % 2 = 1 then ah * BASIS_POINTS_PER_UNIT + al else 0) ∧
    remMulDivStepExact k ah al cp i q r_hi r_lo = remMulDivStep k ah al cp i q r_hi r_lo := by
  obtain ⟨hd1, hd2, hdv, hdb, hdw⟩ := double_base_10k_reduce_spec r_hi r_lo cp h1 h2
  have hM : 0 < cp * BASIS_POINTS_PER_UNIT := by
    have hcp : 0 < cp := by omega
    have hB := BASIS_POINTS_PER_UNIT_pos
    positivity
  have hVM := canonical_value_lt r_hi r_lo cp h1 h2
  have hbit_le : (double_base_10k_reduce r_hi r_lo cp).2.2 ≤ 1 := by
    rw [hdb]
    have : 2 * (r_hi * BASIS_POINTS_PER_UNIT + r_lo) / (cp * BASIS_POINTS_PER_UNIT) < 2 :=
      Nat.div_lt_of_lt_mul (by omega)
    omega
  have hbitM : (double_base_10k_reduce r_hi r_lo cp).2.2 * (cp * BASIS_POINTS_PER_UNIT)
      ≤ 2 * (r_hi * BASIS_POINTS_PER_UNIT + r_lo) := by
    rw [hdb]; exact Nat.div_mul_le_self _ _
  have hdval : (double_base_10k_reduce r_hi r_lo cp).1 * BASIS_POINTS_PER_UNIT +
      (double_base_10k_reduce r_hi r_lo cp).2.1 +
      (double_base_10k_reduce r_hi r_lo cp).2.2 * (cp * BASIS_POINTS_PER_UNIT)
      = 2 * (r_hi * BASIS_POINTS_PER_UNIT + r_lo) := by
    have hdm := Nat.div_add_mod (2 * (r_hi * BASIS_POINTS_PER_UNIT + r_lo))
      (cp * BASIS_POINTS_PER_UNIT)
    rw [← hdb] at hdm
    rw [Nat.mul_comm] at hdm
    rw [hdv]
    omega
  have h2q : 2 * q < U64_MOD := by
    have e1 : (2 * q) * (cp * BASIS_POINTS_PER_UNIT)
        = 2 * (q * (cp * BASIS_POINTS_PER_UNIT)) := by ring
    have e2 : (2 * q) * (cp * BASIS_POINTS_PER_UNIT) < U64_MOD * (cp * BASIS_POINTS_PER_UNIT) := by
      have hite : (0 : Nat) ≤ (if (k >>> i) % 2 = 1
          then ah * BASIS_POINTS_PER_UNIT + al else 0) := Nat.zero_le _
      omega
    exact Nat.lt_of_mul_lt_mul_right e2
  have hmodq : (2 * q) % U64_MOD = 2 * q := Nat.mod_eq_of_lt h2q
  have e5 : (q * (cp * BASIS_POINTS_PER_UNIT) + (r_hi * BASIS_POINTS_PER_UNIT + r_lo)) * 2
      = 2 * (q * (cp * BASIS_POINTS_PER_UNIT)) + 2 * (r_hi * BASIS_POINTS_PER_UNIT + r_lo) := by
    ring
  by_cases hbset : (k >>> i) % 2 = 1
  · obtain ⟨hs1, hs2, hsval, hsw⟩ := add_base_10k_mod_spec
      (double_base_10k_reduce r_hi r_lo cp).1 (double_base_10k_reduce r_hi r_lo cp).2.1
      ah al cp hd1 hd2 hah hal
    have hA := canonical_value_lt ah al cp hah hal
    have hVd := canonical_value_lt (double_base_10k_reduce r_hi r_lo cp).1
      (double_base_10k_reduce r_hi r_lo cp).2.1 cp hd1 hd2
    have hVs := canonical_value_lt
      (add_base_10k_mod (double_base_10k_reduce r_hi r_lo cp).1
        (double_base_10k_reduce r_hi r_lo cp).2.1 ah al cp).1
      (add_base_10k_mod (double_base_10k_reduce r_hi r_lo cp).1
        (double_base_10k_reduce r_hi r_lo cp).2.1 ah al cp).2.1 cp hs1 hs2
    have hite : (if (k >>> i) % 2 = 1 then ah * BASIS_POINTS_PER_UNIT + al else 0)
        = ah * BASIS_POINTS_PER_UNIT + al := if_pos hbset
    have hq2lt : 2 * q + (double_base_10k_reduce r_hi r_lo cp).2.2 +
        (add_base_10k_mod (double_base_10k_reduce r_hi r_lo cp).1
          (double_base_10k_reduce r_hi r_lo cp).2.1 ah al cp).2.2 < U64_MOD := by
      have e6 : (2 * q + (double_base_10k_reduce r_hi r_lo cp).2.2 +
          (add_base_10k_mod (double_base_10k_reduce r_hi r_lo cp).1
            (double_base_10k_reduce r_hi r_lo cp).2.1 ah al cp).2.2) *
          (cp * BASIS_POINTS_PER_UNIT)
          = 2 * (q * (cp * BASIS_POINTS_PER_UNIT)) +
            (double_base_10k_reduce r_hi r_lo cp).2.2 * (cp * BASIS_POINTS_PER_UNIT) +
            (add_base_10k_mod (double_base_10k_reduce r_hi r_lo cp).1
              (double_base_10k_reduce r_hi r_lo cp).2.1 ah al cp).2.2 *
              (cp * BASIS_POINTS_PER_UNIT) := by
        ring
      have e7 : (2 * q + (double_base_10k_reduce r_hi r_lo cp).2.2 +
          (add_base_10k_mod (double_base_10k_reduce r_hi r_lo cp).1
            (double_base_10k_reduce r_hi r_lo cp).2.1 ah al cp).2.2) *
          (cp * BASIS_POINTS_PER_UNIT) < U64_MOD * (cp * BASIS_POINTS_PER_UNIT) := by
        rw [hite] at hbound
        omega
      exact Nat.lt_of_mul_lt_mul_right e7
    by_cases hw0 : (add_base_10k_mod (double_base_10k_reduce r_hi r_lo cp).1
        (double_base_10k_reduce r_hi r_lo cp).2.1 ah al cp).2.2 = 0
    · have hstep : remMulDivStep k ah al cp i q r_hi r_lo
          = (2 * q + (double_base_10k_reduce r_hi r_lo cp).2.2,
              (add_base_10k_mod (double_base_10k_reduce r_hi r_lo cp).1
                (double_base_10k_reduce r_hi r_lo cp).2.1 ah al cp).1,
              (add_base_10k_mod (double_base_10k_reduce r_hi r_lo cp).1
                (double_base_10k_reduce r_hi r_lo cp).2.1 ah al cp).2.1) := by
        simp only [remMulDivStep, hmodq, if_pos hbset, hw0,
          if_neg (by simp : ¬ (0 : Nat) ≠ 0)]
      have hstepx : remMulDivStepExact k ah al cp i q r_hi r_lo
          = (2 * q + (double_base_10k_reduce r_hi r_lo cp).2.2,
              (add_base_10k_mod (double_base_10k_reduce r_hi r_lo cp).1
                (double_base_10k_reduce r_hi r_lo cp).2.1 ah al cp).1,
              (add_base_10k_mod (double_base_10k_reduce r_hi r_lo cp).1
                (double_base_10k_reduce r_hi r_lo cp).2.1 ah al cp).2.1) := by
        simp only [remMulDivStepExact, if_pos hbset, hw0,
          if_neg (by simp : ¬ (0 : Nat) ≠ 0)]
      rw [hstep, hstepx]
      dsimp only
      rw [hite]
      rw [hw0] at hsval
      refine ⟨hs1, hs2, ?_, rfl⟩
      have e3 : (2 * q + (double_base_10k_reduce r_hi r_lo cp).2.2) *
          (cp * BASIS_POINTS_PER_UNIT)
          = 2 * (q * (cp * BASIS_POINTS_PER_UNIT)) +
            (double_base_10k_reduce r_hi r_lo cp).2.2 * (cp * BASIS_POINTS_PER_UNIT) := by
        ring
      omega
    · have hsum : 2 * q + (double_base_10k_reduce r_hi r_lo cp).2.2 +
          (add_base_10k_mod (double_base_10k_reduce r_hi r_lo cp).1
            (double_base_10k_reduce r_hi r_lo cp).2.1 ah al cp).2.2 < U64_MOD := hq2lt
      have hstep : remMulDivStep k ah al cp i q r_hi r_lo
          = (2 * q + (double_base_10k_reduce r_hi r_lo cp).2.2 +
              (add_base_10k_mod (double_base_10k_reduce r_hi r_lo cp).1
                (double_base_10k_reduce r_hi r_lo cp).2.1 ah al cp).2.2,
              (add_base_10k_mod (double_base_10k_reduce r_hi r_lo cp).1
                (double_base_10k_reduce r_hi r_lo cp).2.1 ah al cp).1,
              (add_base_10k_mod (double_base_10k_reduce r_hi r_lo cp).1
                (double_base_10k_reduce r_hi r_lo cp).2.1 ah al cp).2.1) := by
        simp only [remMulDivStep, hmodq, if_pos hbset, if_pos hw0]
        rw [Nat.mod_eq_of_lt hsum]
      have hstepx : remMulDivStepExact k ah al cp i q r_hi r_lo
          = (2 * q + (double_base_10k_reduce r_hi r_lo cp).2.2 +
              (add_base_10k_mod (double_base_10k_reduce r_hi r_lo cp).1
                (double_base_10k_reduce r_hi r_lo cp).2.1 ah al cp).2.2,
              (add_base_10k_mod (double_base_10k_reduce r_hi r_lo cp).1
                (double_base_10k_reduce r_hi r_lo cp).2.1 ah al cp).1,
              (add_base_10k_mod (double_base_10k_reduce r_hi r_lo cp).1
                (double_base_10k_reduce r_hi r_lo cp).2.1 ah al cp).2.1) := by
        simp only [remMulDivStepExact, if_pos hbset, if_pos hw0]
      rw [hstep, hstepx]
      dsimp only
      rw [hite]
      have hswle : (add_base_10k_mod (double_base_10k_reduce r_hi r_lo cp).1
          (double_base_10k_reduce r_hi r_lo cp).2.1 ah al cp).2.2 ≤ 1 := by
        by_contra hgt
        have h22 : (add_base_10k_mod (double_base_10k_reduce r_hi r_lo cp).1
            (double_base_10k_reduce r_hi r_lo cp).2.1 ah al cp).2.2 = 2 := by omega
        rw [h22] at hsval
        omega
      refine ⟨hs1, hs2, ?_, rfl⟩
      have e4 : (2 * q + (double_base_10k_reduce r_hi r_lo cp).2.2 +
          (add_base_10k_mod (double_base_10k_reduce r_hi r_lo cp).1
            (double_base_10k_reduce r_hi r_lo cp).2.1 ah al cp).2.2) *
          (cp * BASIS_POINTS_PER_UNIT)
          = 2 * (q * (cp * BASIS_POINTS_PER_UNIT)) +
            (double_base_10k_reduce r_hi r_lo cp).2.2 * (cp * BASIS_POINTS_PER_UNIT) +
            (add_base_10k_mod (double_base_10k_reduce r_hi r_lo cp).1
              (double_base_10k_reduce r_hi r_lo cp).2.1 ah al cp).2.2 *
              (cp * BASIS_POINTS_PER_UNIT) := by
        ring
      omega
  · have hstep : remMulDivStep k ah al cp i q r_hi r_lo
        = (2 * q + (double_base_10k_reduce r_hi r_lo cp).2.2,
            (double_base_10k_reduce r_hi r_lo cp).1,
            (double_base_10k_reduce r_hi r_lo cp).2.1) := by
      simp only [remMulDivStep, hmodq, if_neg hbset]
    have hstepx : remMulDivStepExact k ah al cp i q r_hi r_lo
        = (2 * q + (double_base_10k_reduce r_hi r_lo cp).2.2,
            (double_base_10k_reduce r_hi r_lo cp).1,
            (double_base_10k_reduce r_hi r_lo cp).2.1) := by
      simp only [remMulDivStepExact, if_neg hbset]
    rw [hstep, hstepx]
    dsimp only
    rw [if_neg hbset]
    refine ⟨hd1, hd2, ?_, rfl⟩
    have e2 : (2 * q + (double_base_10k_reduce r_hi r_lo cp).2.2) *
        (cp * BASIS_POINTS_PER_UNIT)
        = 2 * (q * (cp * BASIS_POINTS_PER_UNIT)) +
          (double_base_10k_reduce r_hi r_lo cp).2.2 * (cp * BASIS_POINTS_PER_UNIT) := by
      ring
    omega

/-- Invariant of the `remainder_mul_div` loop: as long as the value to be
accumulated stays below `2^64 * (cp * 10_000)`, the loop (with its
wrapping additions) computes the exact quotient of the accumulated value
and agrees with the non-wrapping variant. -/
theorem remMulDivLoop_spec (k ah al cp : Nat)
    (hah : ah < cp) (hal : al < BASIS_POINTS_PER_UNIT) :
    ∀ i q r_hi r_lo, r_hi < cp → r_lo < BASIS_POINTS_PER_UNIT →
    (q * (cp * BASIS_POINTS_PER_UNIT) + (r_hi * BASIS_POINTS_PER_UNIT + r_lo)) * 2 ^ i
        + (ah * BASIS_POINTS_PER_UNIT + al) * (k % 2 ^ i)
      < U64_MOD * (cp * BASIS_POINTS_PER_UNIT) →
    remMulDivLoop k ah al cp i q r_hi r_lo
        = ((q * (cp * BASIS_POINTS_PER_UNIT) + (r_hi * BASIS_POINTS_PER_UNIT + r_lo)) * 2 ^ i
            + (ah * BASIS_POINTS_PER_UNIT + al) * (k % 2 ^ i)) / (cp * BASIS_POINTS_PER_UNIT)
      ∧ remMulDivLoopExact k ah al cp i q r_hi r_lo = remMulDivLoop k ah al cp i q r_hi r_lo := by
  have hM : 0 < cp * BASIS_POINTS_PER_UNIT := by
    have hcp : 0 < cp := by omega
    have hB := BASIS_POINTS_PER_UNIT_pos
    positivity
  intro i
  induction i with
  | zero =>
    intro q r_hi r_lo h1 h2 hT
    have hVM := canonical_value_lt r_hi r_lo cp h1 h2
    constructor
    · simp only [remMulDivLoop]
      rw [pow_zero, Nat.mul_one, Nat.mod_one, Nat.mul_zero, Nat.add_zero]
      rw [Nat.mul_comm q (cp * BASIS_POINTS_PER_UNIT), Nat.mul_add_div hM,
        Nat.div_eq_of_lt hVM, Nat.add_zero]
    · simp only [remMulDivLoop, remMulDivLoopExact]
  | succ i ih =>
    intro q r_hi r_lo h1 h2 hT
    have hpow : (0 : Nat) < 2 ^ i := Nat.pos_pow_of_pos i (by norm_num)
    have hdecomp : k % 2 ^ (i + 1) = k % 2 ^ i + 2 ^ i * ((k >>> i) % 2) := by
      rw [pow_succ, Nat.mod_mul, Nat.shiftRight_eq_div_pow]
    have heT : (q * (cp * BASIS_POINTS_PER_UNIT) +
          (r_hi * BASIS_POINTS_PER_UNIT + r_lo)) * 2 ^ (i + 1)
          + (ah * BASIS_POINTS_PER_UNIT + al) * (k % 2 ^ (i + 1))
        = ((q * (cp * BASIS_POINTS_PER_UNIT) + (r_hi * BASIS_POINTS_PER_UNIT + r_lo)) * 2
            + (if (k >>> i) % 2 = 1 then ah * BASIS_POINTS_PER_UNIT + al else 0)) * 2 ^ i
          + (ah * BASIS_POINTS_PER_UNIT + al) * (k % 2 ^ i) := by
      rcases Nat.mod_two_eq_zero_or_one (k >>> i) with hbs | hbs
      · rw [hdecomp, hbs, if_neg (by omega)]
        ring
      · rw [hdecomp, hbs, if_pos rfl]
        ring
    have hstepbound : (q * (cp * BASIS_POINTS_PER_UNIT) +
          (r_hi * BASIS_POINTS_PER_UNIT + r_lo)) * 2
          + (if (k >>> i) % 2 = 1 then ah * BASIS_POINTS_PER_UNIT + al else 0)
        < U64_MOD * (cp * BASIS_POINTS_PER_UNIT) := by
      have hle : (q * (cp * BASIS_POINTS_PER_UNIT) +
            (r_hi * BASIS_POINTS_PER_UNIT + r_lo)) * 2
            + (if (k >>> i) % 2 = 1 then ah * BASIS_POINTS_PER_UNIT + al else 0)
          ≤ ((q * (cp * BASIS_POINTS_PER_UNIT) + (r_hi * BASIS_POINTS_PER_UNIT + r_lo)) * 2
              + (if (k >>> i) % 2 = 1 then ah * BASIS_POINTS_PER_UNIT + al else 0)) * 2 ^ i :=
        Nat.le_mul_of_pos_right _ hpow
      rw [heT] at hT
      omega
    obtain ⟨hc1, hc2, hcval, hcx⟩ :=
      remMulDivStep_spec k ah al cp i q r_hi r_lo hah hal h1 h2 hstepbound
    have hTinner : ((remMulDivStep k ah al cp i q r_hi r_lo).1 *
          (cp * BASIS_POINTS_PER_UNIT) +
          ((remMulDivStep k ah al cp i q r_hi r_lo).2.1 * BASIS_POINTS_PER_UNIT +
            (remMulDivStep k ah al cp i q r_hi r_lo).2.2)) * 2 ^ i
          + (ah * BASIS_POINTS_PER_UNIT + al) * (k % 2 ^ i)
        = (q * (cp * BASIS_POINTS_PER_UNIT) +
            (r_hi * BASIS_POINTS_PER_UNIT + r_lo)) * 2 ^ (i + 1)
          + (ah * BASIS_POINTS_PER_UNIT + al) * (k % 2 ^ (i + 1)) := by
      rw [hcval, heT]
    obtain ⟨ih1, ih2⟩ := ih (remMulDivStep k ah al cp i q r_hi r_lo).1
      (remMulDivStep k ah al cp i q r_hi r_lo).2.1
      (remMulDivStep k ah al cp i q r_hi r_lo).2.2 hc1 hc2 (by rw [hTinner]; exact hT)
    constructor
    · show remMulDivLoop k ah al cp i (remMulDivStep k ah al cp i q r_hi r_lo).1
          (remMulDivStep k ah al cp i q r_hi r_lo).2.1
          (remMulDivStep k ah al cp i q r_hi r_lo).2.2 = _
      rw [ih1, hTinner]
    · show remMulDivLoopExact k ah al cp i (remMulDivStepExact k ah al cp i q r_hi r_lo).1
          (remMulDivStepExact k ah al cp i q r_hi r_lo).2.1
          (remMulDivStepExact k ah al cp i q r_hi r_lo).2.2 = _
      rw [hcx]
      show remMulDivLoopExact k ah al cp i (remMulDivStep k ah al cp i q r_hi r_lo).1
          (remMulDivStep k ah al cp i q r_hi r_lo).2.1
          (remMulDivStep k ah al cp i q r_hi r_lo).2.2 = _
      rw [ih2]
      simp only [remMulDivLoop]

/-- Exactness of `remainder_mul_div`: on a canonical reduced remainder pair it computes
`floor(rem * k / (cp * 10_000))` exactly, and its wrapping additions
never wrap (it agrees with the exact-arithmetic variant). -/
theorem remainder_mul_div_spec (rem_hi rem_lo k cp : Nat)
    (hk : k < 2 ^ 64) (hrh : rem_hi < cp) (hrl : rem_lo < BASIS_POINTS_PER_UNIT) :
    remainder_mul_div rem_hi rem_lo k cp
        = (rem_hi * BASIS_POINTS_PER_UNIT + rem_lo) * k / (cp * BASIS_POINTS_PER_UNIT)
      ∧ remainder_mul_div_exact rem_hi rem_lo k cp = remainder_mul_div rem_hi rem_lo k cp := by
  have hM : 0 < cp * BASIS_POINTS_PER_UNIT := by
    have hcp : 0 < cp := by omega
    have hB := BASIS_POINTS_PER_UNIT_pos
    positivity
  by_cases hk0 : k = 0
  · subst hk0
    constructor
    · simp [remainder_mul_div]
    · simp [remainder_mul_div, remainder_mul_div_exact]
  · have hA := canonical_value_lt rem_hi rem_lo cp hrh hrl
    have hbound : (0 * (cp * BASIS_POINTS_PER_UNIT) + (0 * BASIS_POINTS_PER_UNIT + 0)) * 2 ^ 64
          + (rem_hi * BASIS_POINTS_PER_UNIT + rem_lo) * (k % 2 ^ 64)
        < U64_MOD * (cp * BASIS_POINTS_PER_UNIT) := by
      rw [Nat.mod_eq_of_lt hk]
      have h1 : (rem_hi * BASIS_POINTS_PER_UNIT + rem_lo) * k
          ≤ (rem_hi * BASIS_POINTS_PER_UNIT + rem_lo) * U64_MOD := by
        apply Nat.mul_le_mul_left
        have : U64_MOD = 2 ^ 64 := rfl
        omega
      have h2 : (rem_hi * BASIS_POINTS_PER_UNIT + rem_lo) * U64_MOD
          < (cp * BASIS_POINTS_PER_UNIT) * U64_MOD := by
        have hU : (0 : Nat) < U64_MOD := by norm_num [U64_MOD]
        exact (Nat.mul_lt_mul_right hU).mpr hA
      have h3 : (cp * BASIS_POINTS_PER_UNIT) * U64_MOD
          = U64_MOD * (cp * BASIS_POINTS_PER_UNIT) := Nat.mul_comm _ _
      omega
    obtain ⟨hl1, hl2⟩ := remMulDivLoop_spec k rem_hi rem_lo cp hrh hrl 64 0 0 0
      (by omega) (by omega) hbound
    have hres : remainder_mul_div rem_hi rem_lo k cp = remMulDivLoop k rem_hi rem_lo cp 64 0 0 0 := by
      simp only [remainder_mul_div, if_neg hk0]
    have hresx : remainder_mul_div_exact rem_hi rem_lo k cp
        = remMulDivLoopExact k rem_hi rem_lo cp 64 0 0 0 := by
      simp only [remainder_mul_div_exact, if_neg hk0]
    constructor
    · rw [hres, hl1, Nat.mod_eq_of_lt hk]
      congr 1
      ring
    · rw [hres, hresx, hl2]

/-! ## The rate selector and the full streaming formula -/

/-- The selected rate is one of the two constants; in particular it is
positive, at most `2_500`, and fits in 64 bits. -/
theorem warmup_rate_bounds (epoch : Nat) (act : Option Nat) :
    0 < warmup_cooldown_rate_bps epoch act ∧
    warmup_cooldown_rate_bps epoch act ≤ 2500 ∧
    warmup_cooldown_rate_bps epoch act < 2 ^ 64 := by
  unfold warmup_cooldown_rate_bps ORIGINAL_WARMUP_COOLDOWN_RATE_BPS
    TOWER_WARMUP_COOLDOWN_RATE_BPS
  split_ifs <;> norm_num

/-- The streaming calculator computes the clamped exact formula
`min (floor(ap * ce * rate / (cp * 10_000))) ap` (with the zero guard). -/
theorem ebpf_eq_min (epoch ap cp ce : Nat) (act : Option Nat) (hce : ce < 2 ^ 64) :
    ebpf_rate_limited_stake_change epoch ap cp ce act
      = if ap = 0 ∨ cp = 0 ∨ ce = 0 then 0
        else min (ap * ce * warmup_cooldown_rate_bps epoch act /
            (cp * BASIS_POINTS_PER_UNIT)) ap := by
  by_cases hz : ap = 0 ∨ cp = 0 ∨ ce = 0
  · simp only [ebpf_rate_limited_stake_change, if_pos hz]
  · rw [if_neg hz]
    have hcp : 0 < cp := by omega
    have hB := BASIS_POINTS_PER_UNIT_pos
    have hM : 0 < cp * BASIS_POINTS_PER_UNIT := Nat.mul_pos hcp hB
    obtain ⟨hrpos, hrle, hrlt⟩ := warmup_rate_bounds epoch act
    obtain ⟨hsome, hnone_iff⟩ := mul_div_by_cp10k_capped_spec ap ce cp
      (ap / warmup_cooldown_rate_bps epoch act) hce hcp
    have hdm := Nat.div_add_mod ap (warmup_cooldown_rate_bps epoch act)
    have hmodlt : ap % warmup_cooldown_rate_bps epoch act <
        warmup_cooldown_rate_bps epoch act := Nat.mod_lt _ hrpos
    rcases hmd : mul_div_by_cp10k_capped ap ce cp
        (ap / warmup_cooldown_rate_bps epoch act) with _ | t
    · -- cap exceeded before applying the rate: saturate to `ap`
      have hlt := hnone_iff.mp hmd
      have hres : ebpf_rate_limited_stake_change epoch ap cp ce act = ap := by
        simp only [ebpf_rate_limited_stake_change, if_neg hz, hmd]
      rw [hres]
      -- `ap < (ap / r + 1) * r ≤ (ap*ce/M) * r ≤ ap*ce*r/M`
      have f1 : (ap * ce / (cp * BASIS_POINTS_PER_UNIT)) *
            warmup_cooldown_rate_bps epoch act
          ≤ ap * ce * warmup_cooldown_rate_bps epoch act /
            (cp * BASIS_POINTS_PER_UNIT) := by
        rw [Nat.le_div_iff_mul_le hM]
        have h1 : (ap * ce / (cp * BASIS_POINTS_PER_UNIT)) * (cp * BASIS_POINTS_PER_UNIT)
            ≤ ap * ce := Nat.div_mul_le_self _ _
        calc (ap * ce / (cp * BASIS_POINTS_PER_UNIT)) *
              warmup_cooldown_rate_bps epoch act * (cp * BASIS_POINTS_PER_UNIT)
            = ((ap * ce / (cp * BASIS_POINTS_PER_UNIT)) * (cp * BASIS_POINTS_PER_UNIT)) *
              warmup_cooldown_rate_bps epoch act := by ring
        _ ≤ (ap * ce) * warmup_cooldown_rate_bps epoch act :=
              Nat.mul_le_mul_right _ h1
      have f2 : (ap / warmup_cooldown_rate_bps epoch act + 1) *
            warmup_cooldown_rate_bps epoch act
          ≤ (ap * ce / (cp * BASIS_POINTS_PER_UNIT)) *
            warmup_cooldown_rate_bps epoch act :=
        Nat.mul_le_mul_right _ (by omega)
      have f3 : (ap / warmup_cooldown_rate_bps epoch act + 1) *
            warmup_cooldown_rate_bps epoch act
          = (ap / warmup_cooldown_rate_bps epoch act) *
            warmup_cooldown_rate_bps epoch act + warmup_cooldown_rate_bps epoch act := by
        ring
      have f4 : warmup_cooldown_rate_bps epoch act *
            (ap / warmup_cooldown_rate_bps epoch act)
          = (ap / warmup_cooldown_rate_bps epoch act) *
            warmup_cooldown_rate_bps epoch act := Nat.mul_comm _ _
      rw [Nat.min_def]
      split_ifs <;> omega
    · obtain ⟨hc1, hc2, hq1floor, hval⟩ := hsome t hmd
      have hVlt := canonical_value_lt t.2.1 t.2.2 cp hc1 hc2
      have hq1le : t.1 ≤ ap / warmup_cooldown_rate_bps epoch act := by
        by_contra hgt
        have hn := hnone_iff.mpr (by omega)
        rw [hmd] at hn
        exact Option.noConfusion hn
      have hq1r : t.1 * warmup_cooldown_rate_bps epoch act ≤ ap := by
        have h1 : t.1 * warmup_cooldown_rate_bps epoch act
            ≤ (ap / warmup_cooldown_rate_bps epoch act) *
              warmup_cooldown_rate_bps epoch act :=
          Nat.mul_le_mul_right _ hq1le
        have f4 : warmup_cooldown_rate_bps epoch act *
              (ap / warmup_cooldown_rate_bps epoch act)
            = (ap / warmup_cooldown_rate_bps epoch act) *
              warmup_cooldown_rate_bps epoch act := Nat.mul_comm _ _
        omega
      have htotal : mul_cap t.1 (warmup_cooldown_rate_bps epoch act) ap
          = t.1 * warmup_cooldown_rate_bps epoch act := by
        rw [mul_cap_spec t.1 _ ap hrlt]
        exact Nat.min_eq_left hq1r
      obtain ⟨ht2, _⟩ := remainder_mul_div_spec t.2.1 t.2.2
        (warmup_cooldown_rate_bps epoch act) cp hrlt hc1 hc2
      have hTdecomp : ap * ce * warmup_cooldown_rate_bps epoch act /
            (cp * BASIS_POINTS_PER_UNIT)
          = t.1 * warmup_cooldown_rate_bps epoch act +
            (t.2.1 * BASIS_POINTS_PER_UNIT + t.2.2) *
              warmup_cooldown_rate_bps epoch act / (cp * BASIS_POINTS_PER_UNIT) := by
        have e : ap * ce * warmup_cooldown_rate_bps epoch act
            = (cp * BASIS_POINTS_PER_UNIT) * (t.1 * warmup_cooldown_rate_bps epoch act) +
              (t.2.1 * BASIS_POINTS_PER_UNIT + t.2.2) *
                warmup_cooldown_rate_bps epoch act := by
          rw [← hval]
          ring
        rw [e, Nat.mul_add_div hM]
      have hres : ebpf_rate_limited_stake_change epoch ap cp ce act
          = (if ap ≤ mul_cap t.1 (warmup_cooldown_rate_bps epoch act) ap then ap
             else if ap - mul_cap t.1 (warmup_cooldown_rate_bps epoch act) ap ≤
                remainder_mul_div t.2.1 t.2.2 (warmup_cooldown_rate_bps epoch act) cp
              then ap
              else mul_cap t.1 (warmup_cooldown_rate_bps epoch act) ap +
                remainder_mul_div t.2.1 t.2.2 (warmup_cooldown_rate_bps epoch act) cp) := by
        simp only [ebpf_rate_limited_stake_change, if_neg hz, hmd]
      rw [hres, htotal, ht2, hTdecomp]
      rw [Nat.min_def]
      split_ifs <;> omega

/-- When the `u128` numerator does not overflow, the manual backend also
computes the clamped exact formula. -/
theorem manual_eq_min (epoch ap cp ce : Nat) (act : Option Nat)
    (hap : ap < 2 ^ 64) (hcp : cp < 2 ^ 64)
    (hov : ap * ce * warmup_cooldown_rate_bps epoch act < U128_MOD) :
    manual_rate_limited_stake_change epoch ap cp ce act
      = if ap = 0 ∨ cp = 0 ∨ ce = 0 then 0
        else min (ap * ce * warmup_cooldown_rate_bps epoch act /
            (cp * BASIS_POINTS_PER_UNIT)) ap := by
  by_cases hz : ap = 0 ∨ cp = 0 ∨ ce = 0
  · simp only [manual_rate_limited_stake_change, if_pos hz]
  · rw [if_neg hz]
    obtain ⟨hrpos, hrle, hrlt⟩ := warmup_rate_bounds epoch act
    have h1 : ap * ce < U128_MOD := by
      have := Nat.le_mul_of_pos_right (ap * ce) hrpos
      omega
    have hden : min (cp * BASIS_POINTS_PER_UNIT) (U128_MOD - 1)
        = cp * BASIS_POINTS_PER_UNIT := by
      apply Nat.min_eq_left
      have h64 : (2 : Nat) ^ 64 = 18446744073709551616 := by norm_num
      have hcp' : cp ≤ 18446744073709551615 := by omega
      have hle : cp * BASIS_POINTS_PER_UNIT ≤ 18446744073709551615 * BASIS_POINTS_PER_UNIT :=
        Nat.mul_le_mul_right _ hcp'
      have : (18446744073709551615 : Nat) * BASIS_POINTS_PER_UNIT ≤ U128_MOD - 1 := by
        norm_num [BASIS_POINTS_PER_UNIT, U128_MOD]
      omega
    have hres : manual_rate_limited_stake_change epoch ap cp ce act
        = (min (ap * ce * warmup_cooldown_rate_bps epoch act /
              (cp * BASIS_POINTS_PER_UNIT)) ap) % U64_MOD := by
      simp only [manual_rate_limited_stake_change, if_neg hz, if_pos h1, if_pos hov, hden]
    rw [hres]
    apply Nat.mod_eq_of_lt
    have h2 : min (ap * ce * warmup_cooldown_rate_bps epoch act /
          (cp * BASIS_POINTS_PER_UNIT)) ap ≤ ap := Nat.min_le_right _ _
    have hU : U64_MOD = 2 ^ 64 := rfl
    omega

/-! ## Iteration counting -/

/-- The `remainder_mul_div` loop body never exits early: with fuel `i` it
always runs exactly `i` iterations. -/
theorem remMulDivLoopIters_eq (k ah al cp : Nat) :
    ∀ i q r_hi r_lo, remMulDivLoopIters k ah al cp i q r_hi r_lo = i := by
  intro i
  induction i with
  | zero => intro q r_hi r_lo; rfl
  | succ i ih =>
    intro q r_hi r_lo
    simp only [remMulDivLoopIters]
    rw [ih]
    omega

/-- When the capped multiply-divide loop completes (returns `some`), it has
run exactly its full fuel's worth of iterations. -/
theorem mulDivLoopIters_of_some (b aq ah al cp q_cap : Nat) :
    ∀ i q r_hi r_lo t, mulDivLoop b aq ah al cp q_cap i q r_hi r_lo = some t →
      mulDivLoopIters b aq ah al cp q_cap i q r_hi r_lo = i := by
  intro i
  induction i with
  | zero => intro q r_hi r_lo t _; rfl
  | succ i ih =>
    intro q r_hi r_lo t ht
    rcases hstep : mulDivStep b aq ah al cp q_cap i q r_hi r_lo with _ | s
    · simp only [mulDivLoop, hstep] at ht
      exact Option.noConfusion ht
    · simp only [mulDivLoop, hstep] at ht
      simp only [mulDivLoopIters, hstep]
      rw [ih s.1 s.2.1 s.2.2 t ht]
      omega

/-! ## Claim theorems -/

/-- C1: for every input, the streaming `rate_limited_stake_change` returns 0
when any of `account_portion`, `cluster_portion`, `cluster_effective` is 0,
and otherwise returns
`min (floor(account_portion * cluster_effective * rate_bps / (cluster_portion * 10_000))) account_portion`
where `rate_bps` is the epoch-selected rate; in particular the result never
exceeds `account_portion`. -/
theorem ebpf_streaming_formula_correct (epoch ap cp ce : Nat) (act : Option Nat)
    (hap : ap < 2 ^ 64) (hcp : cp < 2 ^ 64) (hce : ce < 2 ^ 64) :
    ebpf_rate_limited_stake_change epoch ap cp ce act
      = (if ap = 0 ∨ cp = 0 ∨ ce = 0 then 0
         else min (ap * ce * warmup_cooldown_rate_bps epoch act /
             (cp * BASIS_POINTS_PER_UNIT)) ap) ∧
    ebpf_rate_limited_stake_change epoch ap cp ce act ≤ ap := by
  have h := ebpf_eq_min epoch ap cp ce act hce
  refine ⟨h, ?_⟩
  rw [h]
  split_ifs
  · exact Nat.zero_le ap
  · exact Nat.min_le_right _ _

/-- Witness for C1 at the spec's worked example. -/
theorem ebpf_streaming_formula_correct_witness :
    ((100000 : Nat) < 2 ^ 64 ∧ (50000 : Nat) < 2 ^ 64) ∧
    ebpf_rate_limited_stake_change 0 100000 50000 100000 none = 50000 ∧
    ebpf_rate_limited_stake_change 0 100000 50000 100000 none ≤ 100000 := by
  have h := ebpf_streaming_formula_correct 0 100000 50000 100000 none
    (by norm_num) (by norm_num) (by norm_num)
  refine ⟨⟨by norm_num, by norm_num⟩, ?_, h.2⟩
  rw [h.1]
  decide

/-- C2 counterexample: at `account_portion = cluster_portion =
cluster_effective = u64::MAX` the manual `u128` backend overflows its
numerator and saturates to `account_portion`, while the streaming engine
returns the exact clamped value — the two backends disagree. -/
theorem streaming_vs_manual_counterexample :
    ebpf_rate_limited_stake_change 0 U64_MAX U64_MAX U64_MAX none = 4611686018427387903 ∧
    manual_rate_limited_stake_change 0 U64_MAX U64_MAX U64_MAX none = U64_MAX ∧
    ebpf_rate_limited_stake_change 0 U64_MAX U64_MAX U64_MAX none ≠
      manual_rate_limited_stake_change 0 U64_MAX U64_MAX U64_MAX none := by
  have e1 : ebpf_rate_limited_stake_change 0 U64_MAX U64_MAX U64_MAX none
      = 4611686018427387903 := by decide
  have e2 : manual_rate_limited_stake_change 0 U64_MAX U64_MAX U64_MAX none = U64_MAX := by
    decide
  exact ⟨e1, e2, by rw [e1, e2]; decide⟩

/-- C2 (amended): the streaming engine and the `u128` reference backend
agree on every input whose numerator `ap * ce * rate_bps` fits in 128 bits
(on overflow the reference saturates to `account_portion` instead). -/
theorem streaming_manual_agree_no_overflow (epoch ap cp ce : Nat) (act : Option Nat)
    (hap : ap < 2 ^ 64) (hcp : cp < 2 ^ 64) (hce : ce < 2 ^ 64)
    (hov : ap * ce * warmup_cooldown_rate_bps epoch act < U128_MOD) :
    ebpf_rate_limited_stake_change epoch ap cp ce act
      = manual_rate_limited_stake_change epoch ap cp ce act := by
  rw [ebpf_eq_min epoch ap cp ce act hce, manual_eq_min epoch ap cp ce act hap hcp hov]

/-- Witness for the amended C2. -/
theorem streaming_manual_agree_no_overflow_witness :
    (100000 * 100000 * warmup_cooldown_rate_bps 0 none < U128_MOD) ∧
    ebpf_rate_limited_stake_change 0 100000 50000 100000 none
      = manual_rate_limited_stake_change 0 100000 50000 100000 none :=
  ⟨by decide, streaming_manual_agree_no_overflow 0 100000 50000 100000 none
    (by norm_num) (by norm_num) (by norm_num) (by decide)⟩

/-- C3 counterexample: with `cp = 1` and both factors `2^63`, the true
quotient exceeds `u64::MAX`, so `mul_div_by_cp10k_capped` with
`q_cap = u64::MAX` returns `none` rather than `Some`. -/
theorem mul_div_exact_counterexample :
    mul_div_by_cp10k_capped (2 ^ 63) (2 ^ 63) 1 U64_MAX = none ∧
    U64_MAX < 2 ^ 63 * 2 ^ 63 / (1 * BASIS_POINTS_PER_UNIT) := by
  exact ⟨by decide, by decide⟩

/-- C3 (amended): whenever the true quotient fits in `u64`,
`mul_div_by_cp10k_capped(a, b, cp, u64::MAX)` returns `some (q, rem_hi,
rem_lo)` with `q * (cp * 10_000) + rem_hi * 10_000 + rem_lo = a * b` and
`rem_hi * 10_000 + rem_lo < cp * 10_000`. -/
theorem mul_div_exact_u64max (a b cp : Nat) (ha : a < 2 ^ 64) (hb : b < 2 ^ 64)
    (hcp : 0 < cp)
    (hq : a * b / (cp * BASIS_POINTS_PER_UNIT) ≤ U64_MAX) :
    ∃ q rh rl, mul_div_by_cp10k_capped a b cp U64_MAX = some (q, rh, rl) ∧
      q * (cp * BASIS_POINTS_PER_UNIT) + (rh * BASIS_POINTS_PER_UNIT + rl) = a * b ∧
      rh * BASIS_POINTS_PER_UNIT + rl < cp * BASIS_POINTS_PER_UNIT := by
  obtain ⟨hsome, hnone⟩ := mul_div_by_cp10k_capped_spec a b cp U64_MAX hb hcp
  rcases hmd : mul_div_by_cp10k_capped a b cp U64_MAX with _ | t
  · have := hnone.mp hmd
    omega
  · obtain ⟨c1, c2, c3, c4⟩ := hsome t hmd
    exact ⟨t.1, t.2.1, t.2.2, rfl, c4, canonical_value_lt _ _ _ c1 c2⟩

/-- Witness for the amended C3. -/
theorem mul_div_exact_u64max_witness :
    ((100000 : Nat) * 200000 / (3 * BASIS_POINTS_PER_UNIT) ≤ U64_MAX) ∧
    (∃ q rh rl, mul_div_by_cp10k_capped 100000 200000 3 U64_MAX = some (q, rh, rl) ∧
      q * (3 * BASIS_POINTS_PER_UNIT) + (rh * BASIS_POINTS_PER_UNIT + rl) = 100000 * 200000 ∧
      rh * BASIS_POINTS_PER_UNIT + rl < 3 * BASIS_POINTS_PER_UNIT) :=
  ⟨by decide, mul_div_exact_u64max 100000 200000 3 (by norm_num) (by norm_num)
    (by norm_num) (by decide)⟩

/-- C4: `mul_div_by_cp10k_capped(a, b, cp, q_cap)` returns `none` if and
only if the true quotient `floor(a * b / (cp * 10_000))` strictly exceeds
`q_cap`. -/
theorem mul_div_none_iff_cap_exceeded (a b cp q_cap : Nat) (ha : a < 2 ^ 64)
    (hb : b < 2 ^ 64) (hcp : 0 < cp) :
    mul_div_by_cp10k_capped a b cp q_cap = none ↔
      q_cap < a * b / (cp * BASIS_POINTS_PER_UNIT) :=
  (mul_div_by_cp10k_capped_spec a b cp q_cap hb hcp).2

/-- Witness for C4 (a case where the cap is exceeded). -/
theorem mul_div_none_iff_cap_exceeded_witness :
    ((0 : Nat) < 7) ∧
    (mul_div_by_cp10k_capped 100000 3 7 0 = none ↔
      0 < 100000 * 3 / (7 * BASIS_POINTS_PER_UNIT)) ∧
    mul_div_by_cp10k_capped 100000 3 7 0 = none :=
  ⟨by norm_num,
   mul_div_none_iff_cap_exceeded 100000 3 7 0 (by norm_num) (by norm_num) (by norm_num),
   (mul_div_none_iff_cap_exceeded 100000 3 7 0 (by norm_num) (by norm_num)
     (by norm_num)).mpr (by decide)⟩

/-- C5: `mul_cap(a, b, cap) = min (a * b) cap` for all `u64` inputs, with
the exact mathematical product, and it returns 0 when either operand is 0. -/
theorem mul_cap_min (a b cap : Nat) (ha : a < 2 ^ 64) (hb : b < 2 ^ 64)
    (hcap : cap < 2 ^ 64) :
    mul_cap a b cap = min (a * b) cap ∧ ((a = 0 ∨ b = 0) → mul_cap a b cap = 0) := by
  have h := mul_cap_spec a b cap hb
  refine ⟨h, fun hz => ?_⟩
  rw [h]
  rcases hz with hz | hz <;> subst hz <;> simp

/-- Witness for C5 (saturating case and zero case). -/
theorem mul_cap_min_witness :
    mul_cap (2 ^ 63) (2 ^ 63) 12345 = min (2 ^ 63 * 2 ^ 63) 12345 ∧
    mul_cap 0 5 99 = 0 :=
  ⟨(mul_cap_min (2 ^ 63) (2 ^ 63) 12345 (by norm_num) (by norm_num) (by norm_num)).1,
   (mul_cap_min 0 5 99 (by norm_num) (by norm_num) (by norm_num)).2 (Or.inl rfl)⟩

/-- C6 counterexample: the pair `(0, 17500)` satisfies
`rem_hi * 10_000 + rem_lo < cp * 10_000` for `cp = 2`, but because
`rem_lo ≥ 10_000` the streaming remainder rescaling loses a wrap:
the code returns 5 while the true floor is 6. -/
theorem remainder_mul_div_counterexample :
    (0 * BASIS_POINTS_PER_UNIT + 17500 < 2 * BASIS_POINTS_PER_UNIT) ∧
    remainder_mul_div 0 17500 7 2 = 5 ∧
    (0 * BASIS_POINTS_PER_UNIT + 17500) * 7 / (2 * BASIS_POINTS_PER_UNIT) = 6 := by
  exact ⟨by decide, by decide, by decide⟩

/-- C6 (amended): for canonical reduced remainder pairs — `rem_lo < 10_000`
in addition to `rem_hi * 10_000 + rem_lo < cp * 10_000` — the rescaling
returns `floor((rem_hi * 10_000 + rem_lo) * k / (cp * 10_000))`, returns 0
when `k = 0`, and its wrapping additions never wrap (it agrees with the
exact-arithmetic variant). -/
theorem remainder_mul_div_correct (rem_hi rem_lo k cp : Nat) (hcp : 0 < cp)
    (hk : k < 2 ^ 64) (hrl : rem_lo < BASIS_POINTS_PER_UNIT)
    (hred : rem_hi * BASIS_POINTS_PER_UNIT + rem_lo < cp * BASIS_POINTS_PER_UNIT) :
    remainder_mul_div rem_hi rem_lo k cp
        = (rem_hi * BASIS_POINTS_PER_UNIT + rem_lo) * k / (cp * BASIS_POINTS_PER_UNIT) ∧
    (k = 0 → remainder_mul_div rem_hi rem_lo k cp = 0) ∧
    remainder_mul_div_exact rem_hi rem_lo k cp = remainder_mul_div rem_hi rem_lo k cp := by
  have hrh : rem_hi < cp := by
    by_contra h
    have : cp * BASIS_POINTS_PER_UNIT ≤ rem_hi * BASIS_POINTS_PER_UNIT :=
      Nat.mul_le_mul_right _ (by omega)
    omega
  obtain ⟨h1, h2⟩ := remainder_mul_div_spec rem_hi rem_lo k cp hk hrh hrl
  exact ⟨h1, fun hk0 => by simp [remainder_mul_div, hk0], h2⟩

/-- Witness for the amended C6. -/
theorem remainder_mul_div_correct_witness :
    ((0 : Nat) < 1000000 ∧ (4567 : Nat) < BASIS_POINTS_PER_UNIT ∧
      123 * BASIS_POINTS_PER_UNIT + 4567 < 1000000 * BASIS_POINTS_PER_UNIT) ∧
    remainder_mul_div 123 4567 900 1000000
      = (123 * BASIS_POINTS_PER_UNIT + 4567) * 900 / (1000000 * BASIS_POINTS_PER_UNIT) :=
  ⟨⟨by decide, by decide, by decide⟩,
   (remainder_mul_div_correct 123 4567 900 1000000 (by norm_num) (by norm_num)
     (by decide) (by decide)).1⟩

/-- C7 counterexample: with the activation epoch absent and
`epoch = u64::MAX`, the code selects 900 (the revised rate), not 2_500 as
the claim states for every absent activation epoch. -/
theorem warmup_rate_max_epoch_counterexample :
    warmup_cooldown_rate_bps U64_MAX none = TOWER_WARMUP_COOLDOWN_RATE_BPS ∧
    TOWER_WARMUP_COOLDOWN_RATE_BPS ≠ ORIGINAL_WARMUP_COOLDOWN_RATE_BPS := by
  exact ⟨by decide, by decide⟩

/-- C7 (amended): the selected rate is 2_500 when the epoch is below the
activation threshold — which defaults to `u64::MAX` when absent — and 900
otherwise; in particular an absent activation epoch yields 2_500 only
for `epoch < u64::MAX`, and 900 at `epoch = u64::MAX`. -/
theorem warmup_rate_selection (epoch : Nat) (act : Option Nat) :
    (∀ t, act = some t → epoch < t →
        warmup_cooldown_rate_bps epoch act = ORIGINAL_WARMUP_COOLDOWN_RATE_BPS) ∧
    (∀ t, act = some t → t ≤ epoch →
        warmup_cooldown_rate_bps epoch act = TOWER_WARMUP_COOLDOWN_RATE_BPS) ∧
    (act = none → epoch < U64_MAX →
        warmup_cooldown_rate_bps epoch act = ORIGINAL_WARMUP_COOLDOWN_RATE_BPS) ∧
    (act = none → U64_MAX ≤ epoch →
        warmup_cooldown_rate_bps epoch act = TOWER_WARMUP_COOLDOWN_RATE_BPS) := by
  refine ⟨fun t ht hlt => ?_, fun t ht hle => ?_, fun ht hlt => ?_, fun ht hle => ?_⟩ <;>
    subst ht <;> simp only [warmup_cooldown_rate_bps, Option.getD_some, Option.getD_none]
  · rw [if_pos hlt]
  · rw [if_neg (by omega)]
  · rw [if_pos hlt]
  · rw [if_neg (by omega)]

/-- Witness for the amended C7. -/
theorem warmup_rate_selection_witness :
    ((some 10 : Option Nat) = some 10 ∧ (5 : Nat) < 10) ∧
    warmup_cooldown_rate_bps 5 (some 10) = ORIGINAL_WARMUP_COOLDOWN_RATE_BPS :=
  ⟨⟨rfl, by norm_num⟩, (warmup_rate_selection 5 (some 10)).1 10 rfl (by norm_num)⟩

/-- C8: with `cp > 0`, after `add_base_10k_mod` or `double_base_10k_reduce`
on pairs in the accepted (canonical) range — `hi < cp`, `lo < 10_000`, and
likewise for the addend — the returned pair again satisfies `lo < 10_000`
and `hi < cp`. -/
theorem mixed_radix_invariant_holds (hi lo add_hi add_lo cp : Nat) (hcp : 0 < cp)
    (h1 : hi < cp) (h2 : lo < BASIS_POINTS_PER_UNIT) (h3 : add_hi < cp)
    (h4 : add_lo < BASIS_POINTS_PER_UNIT) :
    ((add_base_10k_mod hi lo add_hi add_lo cp).2.1 < BASIS_POINTS_PER_UNIT ∧
     (add_base_10k_mod hi lo add_hi add_lo cp).1 < cp) ∧
    ((double_base_10k_reduce hi lo cp).2.1 < BASIS_POINTS_PER_UNIT ∧
     (double_base_10k_reduce hi lo cp).1 < cp) := by
  obtain ⟨a1, a2, _, _⟩ := add_base_10k_mod_spec hi lo add_hi add_lo cp h1 h2 h3 h4
  obtain ⟨d1, d2, _, _, _⟩ := double_base_10k_reduce_spec hi lo cp h1 h2
  exact ⟨⟨a2, a1⟩, ⟨d2, d1⟩⟩

/-- Witness for C8 at a carry-cascade input. -/
theorem mixed_radix_invariant_holds_witness :
    ((0 : Nat) < 2 ∧ (1 : Nat) < 2 ∧ (9999 : Nat) < BASIS_POINTS_PER_UNIT) ∧
    ((add_base_10k_mod 1 9999 1 9999 2).2.1 < BASIS_POINTS_PER_UNIT ∧
     (add_base_10k_mod 1 9999 1 9999 2).1 < 2) ∧
    ((double_base_10k_reduce 1 9999 2).2.1 < BASIS_POINTS_PER_UNIT ∧
     (double_base_10k_reduce 1 9999 2).1 < 2) :=
  ⟨⟨by norm_num, by norm_num, by decide⟩,
   (mixed_radix_invariant_holds 1 9999 1 9999 2 (by norm_num) (by norm_num) (by decide)
     (by norm_num) (by decide)).1,
   (mixed_radix_invariant_holds 1 9999 1 9999 2 (by norm_num) (by norm_num) (by decide)
     (by norm_num) (by decide)).2⟩

/-- C9: on a canonical pair (`hi < cp`, `lo < 10_000`, `cp > 0`),
`double_base_10k_reduce` updates the pair to
`(2 * (hi * 10_000 + lo)) mod (cp * 10_000)` and returns exactly the
quotient bit `(2 * (hi * 10_000 + lo)) / (cp * 10_000)`; the underlying
`add_base_10k_mod` never reports a double wrap on this doubling path. -/
theorem double_reduce_exact (hi lo cp : Nat) (hcp : 0 < cp)
    (h1 : hi < cp) (h2 : lo < BASIS_POINTS_PER_UNIT) :
    (double_base_10k_reduce hi lo cp).1 * BASIS_POINTS_PER_UNIT +
        (double_base_10k_reduce hi lo cp).2.1
      = (2 * (hi * BASIS_POINTS_PER_UNIT + lo)) % (cp * BASIS_POINTS_PER_UNIT) ∧
    (double_base_10k_reduce hi lo cp).2.2
      = (2 * (hi * BASIS_POINTS_PER_UNIT + lo)) / (cp * BASIS_POINTS_PER_UNIT) ∧
    (add_base_10k_mod hi lo hi lo cp).2.2 ≤ 1 := by
  obtain ⟨_, _, h3, h4, h5⟩ := double_base_10k_reduce_spec hi lo cp h1 h2
  exact ⟨h3, h4, h5⟩

/-- Witness for C9 at a wrapping doubling. -/
theorem double_reduce_exact_witness :
    ((0 : Nat) < 3 ∧ (2 : Nat) < 3 ∧ (7777 : Nat) < BASIS_POINTS_PER_UNIT) ∧
    ((double_base_10k_reduce 2 7777 3).1 * BASIS_POINTS_PER_UNIT +
        (double_base_10k_reduce 2 7777 3).2.1
      = (2 * (2 * BASIS_POINTS_PER_UNIT + 7777)) % (3 * BASIS_POINTS_PER_UNIT) ∧
    (double_base_10k_reduce 2 7777 3).2.2
      = (2 * (2 * BASIS_POINTS_PER_UNIT + 7777)) / (3 * BASIS_POINTS_PER_UNIT) ∧
    (add_base_10k_mod 2 7777 2 7777 3).2.2 ≤ 1) :=
  ⟨⟨by norm_num, by norm_num, by decide⟩,
   double_reduce_exact 2 7777 3 (by norm_num) (by norm_num) (by decide)⟩

/-- C10 counterexample: with `a = b = u64::MAX`, `cp = 1`, `q_cap = 0`, the
capped multiply-divide loop exits on its very first iteration (cap
exceeded), so it does not execute 64 iterations. -/
theorem mul_div_early_exit_counterexample :
    mul_div_iterations U64_MAX U64_MAX 1 0 = 1 ∧
    mul_div_iterations U64_MAX U64_MAX 1 0 ≠ 64 := by
  have h : mul_div_iterations U64_MAX U64_MAX 1 0 = 1 := by decide
  exact ⟨h, by rw [h]; decide⟩

/-- C10 (amended): `mul_div_by_cp10k_capped` executes exactly 64 loop
iterations whenever its operands are nonzero, `cp ≠ 0`, and it completes
with `some`; `remainder_mul_div` executes exactly 64 iterations whenever
`k ≠ 0` (and both loops are skipped by the early returns otherwise). -/
theorem loop_iteration_counts (a b cp q_cap rh rl k cp2 : Nat)
    (ha : a ≠ 0) (hb : b ≠ 0) (hcp : cp ≠ 0)
    (hsome : (mul_div_by_cp10k_capped a b cp q_cap).isSome) (hk : k ≠ 0) :
    mul_div_iterations a b cp q_cap = 64 ∧
    remainder_mul_div_iterations rh rl k cp2 = 64 := by
  constructor
  · have hz : ¬ (a = 0 ∨ b = 0) := by
      rintro (h | h) <;> [exact ha h; exact hb h]
    rcases hmd : mul_div_by_cp10k_capped a b cp q_cap with _ | t
    · rw [hmd] at hsome
      simp at hsome
    · have hloop : mulDivLoop b (a / BASIS_POINTS_PER_UNIT / cp)
          (a / BASIS_POINTS_PER_UNIT % cp) (a % BASIS_POINTS_PER_UNIT) cp q_cap 64 0 0 0
          = some t := by
        rw [← hmd]
        simp only [mul_div_by_cp10k_capped, if_neg hz, if_neg hcp]
      simp only [mul_div_iterations, if_neg hz, if_neg hcp]
      exact mulDivLoopIters_of_some b _ _ _ cp q_cap 64 0 0 0 t hloop
  · simp only [remainder_mul_div_iterations, if_neg hk]
    exact remMulDivLoopIters_eq k rh rl cp2 64 0 0 0

/-- Witness for the amended C10. -/
theorem loop_iteration_counts_witness :
    ((100000 : Nat) ≠ 0 ∧ (200000 : Nat) ≠ 0 ∧ (3 : Nat) ≠ 0 ∧
      (mul_div_by_cp10k_capped 100000 200000 3 U64_MAX).isSome ∧ (900 : Nat) ≠ 0) ∧
    mul_div_iterations 100000 200000 3 U64_MAX = 64 ∧
    remainder_mul_div_iterations 123 4567 900 1000000 = 64 :=
  ⟨⟨by norm_num, by norm_num, by norm_num, by decide, by norm_num⟩,
   loop_iteration_counts 100000 200000 3 U64_MAX 123 4567 900 1000000
     (by norm_num) (by norm_num) (by norm_num) (by decide) (by norm_num)⟩
